import Mathlib

/-!
Verification of the `ezrecords` binary record store (`src/core.py`).

The embedding is byte-level and functional:
* a file's content is a `Bytes := List Nat` (each entry one byte);
* a possibly-missing file is an `Option Bytes` (`none` = no file on disk);
* Python exceptions are modelled by `Except Err`:
  - `Err.bounds` is the `assert idx < len(self)` failure in
    `IndexFile.__getitem__` (the spec's BoundsError);
  - `Err.missingCodec` is the missing-serializer/deserializer assertion
    (the spec's MissingCodecError);
  - `Err.indexError` is Python `IndexError` from `items[i]`;
  - `Err.structError` is `struct.error` (packing a value outside `u64`
    range, or unpacking a short read);
  - `Err.ioError` is a filesystem-level failure (opening a missing file,
    a negative seek).
* `struct.pack("<Q", n)` / `struct.unpack("<Q", ...)` are little-endian
  base-256 encodings (`u64le` / `leVal`); packing checks `n < 2^64`
  exactly as CPython's struct does (it raises rather than wrapping).
-/

namespace EzRecords

/-- Error kinds raised by the Python code (see module docstring). -/
inductive Err where
  | bounds
  | missingCodec
  | indexError
  | structError
  | ioError
deriving DecidableEq

/-- A file's content: a list of bytes. -/
abbrev Bytes := List Nat

/-- Range of an unsigned 64-bit value, the `<Q` format of `struct`. -/
def U64MOD : Nat := 2 ^ 64

/-- Little-endian base-256 digits of `n`, `w` bytes wide
(the byte string produced by `struct.pack`). -/
def leBytes : Nat → Nat → Bytes
  | 0, _ => []
  | w + 1, n => n % 256 :: leBytes w (n / 256)

/-- `struct.pack("<Q", n)` for in-range `n`: 8 little-endian bytes. -/
def u64le (n : Nat) : Bytes := leBytes 8 n

/-- Value of a little-endian byte string (`struct.unpack`). -/
def leVal : Bytes → Nat
  | [] => 0
  | b :: bs => b + 256 * leVal bs

/-- `io.seek(pos); struct.unpack("<Q", io.read(8))`: reading fewer than 8
bytes (seek at or past EOF) makes `struct.unpack` raise `struct.error`. -/
def readU64 (f : Bytes) (pos : Nat) : Except Err Nat :=
  if pos + 8 ≤ f.length then .ok (leVal ((f.drop pos).take 8)) else .error .structError

/-- Overwrite bytes of `f` starting at `pos` with `bs` (the effect of
`seek(pos)` followed by `write(bs)` on a `rb+` handle); a seek past EOF
pads the gap with zero bytes. -/
def writeAt (f : Bytes) (pos : Nat) (bs : Bytes) : Bytes :=
  f.take pos ++ List.replicate (pos - f.length) 0 ++ bs ++ f.drop (pos + bs.length)

/-- The 1024 reserved zero bytes written at the head of every record log
(`RESERVED_BYTES = struct.pack("<" + "x" * RESERVED_SPACE)`). -/
def RESERVED : Bytes := List.replicate 1024 0

/-- Content of an index file holding `offs`: an 8-byte count followed by
one 8-byte entry per offset (layout produced by `IndexFile.write`). -/
def indexBytes (offs : List Nat) : Bytes :=
  u64le offs.length ++ (offs.map u64le).flatten

/-- `IndexFile.write(offsets)`: truncate and write count then entries;
`struct.pack` fails on any value outside u64 range. -/
def IndexFile.write (offsets : List Nat) : Except Err Bytes :=
  if offsets.length < U64MOD ∧ ∀ o ∈ offsets, o < U64MOD then
    .ok (indexBytes offsets)
  else .error .structError

/-- `IndexFile.__len__`: 0 when the file does not exist, otherwise the
u64 stored at offset 0. -/
def IndexFile.length (file? : Option Bytes) : Except Err Nat :=
  match file? with
  | none => .ok 0
  | some f => readU64 f 0

/-- `IndexFile.__getitem__(idx)`: `assert idx < len(self)` (a bounds
error), then seek to `(idx+1)*8` and unpack one u64.  `idx` is an `Int`
because Python happily accepts negative indices here. -/
def IndexFile.get (file? : Option Bytes) (idx : Int) : Except Err Nat := do
  let n ← IndexFile.length file?
  if idx < (n : Int) then
    match file? with
    | none => .error .ioError
    | some f =>
      if 0 ≤ (idx + 1) * 8 then readU64 f ((idx + 1) * 8).toNat
      else .error .ioError
  else .error .bounds

/-- `IndexFile.append(idx)`: when the stored count is 0 the file is
opened with mode `wb` (truncating whatever was there) and rewritten as
count 1 plus the single entry; otherwise the count at offset 0 is bumped
in place and the entry is appended at the end of the file. -/
def IndexFile.append (file? : Option Bytes) (v : Nat) : Except Err Bytes := do
  let n ← IndexFile.length file?
  if ¬ n + 1 < U64MOD then .error .structError
  else if ¬ v < U64MOD then .error .structError
  else if n = 0 then .ok (u64le 1 ++ u64le v)
  else
    match file? with
    | none => .error .ioError
    | some f => .ok (writeAt f 0 (u64le (n + 1)) ++ u64le v)

/-- `IndexFile.quick_remove_at(i)`: read the final 8 bytes, truncate
them away, if `i < n - 1` overwrite entry `i` with that buffer, then
rewrite the count as `n - 1` (for `n = 0` Python's
`struct.pack("<Q", -1)` raises `struct.error`). -/
def IndexFile.quick_remove_at (file? : Option Bytes) (i : Nat) : Except Err Bytes := do
  let n ← IndexFile.length file?
  match file? with
  | none => .error .ioError
  | some f =>
    if f.length < 8 then .error .ioError
    else
      let buffer := (f.drop (f.length - 8)).take 8
      let f1 := f.take (f.length - 8)
      let f2 := if i < n - 1 then writeAt f1 (8 * (i + 1)) buffer else f1
      if n = 0 then .error .structError
      else .ok (writeAt f2 0 (u64le (n - 1)))

/-- One record's encoded fields: `[serialize(items[i]) for i, serialize
in enumerate(serializers)]`; Python raises `IndexError` when the record
has fewer fields than there are serializers. -/
def encodeRecord {α : Type _} (serializers : List (α → Bytes)) (items : List α) :
    Except Err (List Bytes) :=
  if serializers.length ≤ items.length then
    .ok (List.zipWith (fun s x => s x) serializers items)
  else .error .indexError

/-- On-disk block of one record: the 8-byte length of every field in
order, then the concatenated payloads. -/
def blockBytes (fields : List Bytes) : Bytes :=
  (fields.map (fun b => u64le b.length)).flatten ++ fields.flatten

/-- Packing a block's headers (`struct.pack("<Q", len(b))`) fails when a
payload is `2^64` bytes or longer. -/
def packBlock (fields : List Bytes) : Except Err Bytes :=
  if ∀ b ∈ fields, b.length < U64MOD then .ok (blockBytes fields)
  else .error .structError

/-- The record-writing loop of `make_dataset`: for every record capture
`io.tell()` into the offset list, then write the block. -/
def buildLoop {α : Type _} (serializers : List (α → Bytes)) :
    List (List α) → Bytes → List Nat → Except Err (Bytes × List Nat)
  | [], log, offs => .ok (log, offs)
  | r :: rs, log, offs => do
    let fields ← encodeRecord serializers r
    let block ← packBlock fields
    buildLoop serializers rs (log ++ block) (offs ++ [log.length])

/-- `make_dataset(record_iters, output, serializers)`: write the reserved
header, stream every record's block into the log collecting offsets, then
write the collected offsets as the index file.  Returns (log content,
index-file content). -/
def make_dataset {α : Type _} (records : List (List α)) (serializers : List (α → Bytes)) :
    Except Err (Bytes × Bytes) := do
  let (log, offs) ← buildLoop serializers records RESERVED []
  let idxf ← IndexFile.write offs
  .ok (log, idxf)

/-- The length-header reads of `IndexedRecordDataset.__getitem__`:
`[struct.unpack("<Q", io.read(8))[0] for _ in range(N)]`, returning the
lengths and the file position after them. -/
def readLens (log : Bytes) (pos : Nat) : Nat → Except Err (List Nat × Nat)
  | 0 => .ok ([], pos)
  | k + 1 => do
    let l ← readU64 log pos
    let (ls, p) ← readLens log (pos + 8) k
    .ok (l :: ls, p)

/-- The payload reads: `io.read(n)` returns at most the bytes up to EOF
(a short read is not an error) and leaves the position clamped at EOF. -/
def readPayloads (log : Bytes) : Nat → List Nat → List Bytes
  | _, [] => []
  | pos, l :: ls =>
    (log.drop pos).take l :: readPayloads log (min (pos + l) log.length) ls

/-- Decode one record at `offset`: read `N = len(deserializers)` u64
lengths, read each payload, apply the deserializers positionally. -/
def readRecord {α : Type _} (log : Bytes) (deserializers : List (Bytes → α)) (offset : Nat) :
    Except Err (List α) := do
  let (lens, pos) ← readLens log offset deserializers.length
  let bufs := readPayloads log pos lens
  .ok (List.zipWith (fun d b => d b) deserializers bufs)

/-- On-disk state of one dataset: record-log file and index file, either
of which may be absent. -/
structure DSState where
  log : Option Bytes
  idx : Option Bytes
deriving DecidableEq

/-- `IndexedRecordDataset.__getitem__(idx)`: assert deserializers are
present, resolve `idx` through the index file, open the log and decode
one record there. -/
def DSState.get {α : Type _} (st : DSState) (deserializers? : Option (List (Bytes → α)))
    (idx : Int) : Except Err (List α) :=
  match deserializers? with
  | none => .error .missingCodec
  | some ds => do
    let offset ← IndexFile.get st.idx idx
    match st.log with
    | none => .error .ioError
    | some log => readRecord log ds offset

/-- `IndexedRecordDataset.quick_remove_at(i)`: delegates to the index
file; the log is untouched. -/
def DSState.quick_remove_at (st : DSState) (i : Nat) : Except Err DSState := do
  let f' ← IndexFile.quick_remove_at st.idx i
  .ok ⟨st.log, some f'⟩

/-- `IndexedRecordDataset.append(items)`.  Faithful to the statement
order of the Python: (1) if the log file is missing or the index reports
length 0, the log is truncated to just the fresh reserved header; (2)
`assert self.serializers is not None`; (3) the record is encoded; (4) the
end-of-file offset is appended to the index file; (5) the block is
appended to the log.  The returned pair is the resulting on-disk state
plus the raised error, if any (a failed call can still have reset the
log, which is why the state is returned alongside the error). -/
def DSState.append {α : Type _} (st : DSState) (serializers? : Option (List (α → Bytes)))
    (items : List α) : DSState × Option Err :=
  let recreate? : Except Err Bool :=
    match st.log with
    | none => .ok true
    | some _ => do
      let n ← IndexFile.length st.idx
      .ok (decide (n = 0))
  match recreate? with
  | .error e => (st, some e)
  | .ok recreate =>
    let log1 : Bytes := if recreate then RESERVED else st.log.getD RESERVED
    match serializers? with
    | none => (⟨some log1, st.idx⟩, some .missingCodec)
    | some ss =>
      match (do
        let fields ← encodeRecord ss items
        packBlock fields : Except Err Bytes) with
      | .error e => (⟨some log1, st.idx⟩, some e)
      | .ok block =>
        match IndexFile.append st.idx log1.length with
        | .error e => (⟨some log1, st.idx⟩, some e)
        | .ok idxf => (⟨some (log1 ++ block), some idxf⟩, none)

/-- The record-log content right after `append`'s opening guard: a fresh
reserved header when the log file is missing or the index reports length
0 (`n`), the existing content otherwise. -/
def resetLog (log? : Option Bytes) (n : Nat) : Bytes :=
  if log? = none ∨ n = 0 then RESERVED else log?.getD RESERVED

/-- The generator expression backing `IndexedRecordDataset.__iter__`:
`self[i]` for `i` running over `fuel` consecutive positions from `i0`. -/
def readSeq {α : Type _} (st : DSState) (ds : List (Bytes → α)) :
    Nat → Nat → Except Err (List (List α))
  | _, 0 => .ok []
  | i, fuel + 1 => do
    let r ← st.get (some ds) (i : Int)
    let rest ← readSeq st ds (i + 1) fuel
    .ok (r :: rest)

/-- Materialize the whole dataset through `__iter__` with `k` identity
deserializers, exactly what `defrag` feeds to the builder. -/
def DSState.readAll (st : DSState) (k : Nat) : Except Err (List (List Bytes)) := do
  let n ← IndexFile.length st.idx
  readSeq st (List.replicate k (fun b => b)) 0 n

/-- `IndexedRecordDataset.defrag(output_file)` minus the path plumbing:
read every indexed record with identity deserializers and rebuild a
fresh (log, index) pair with identity serializers; `k` is the arity
(`len(self.deserializers)`). -/
def DSState.defrag (st : DSState) (k : Nat) : Except Err (Bytes × Bytes) := do
  let records ← st.readAll k
  make_dataset records (List.replicate k (fun b => b))

/-- Index of the last occurrence of `c` in a character list, if any
(`p.rfind(c)` of `os.path.splitext`, with `none` for Python's `-1`). -/
def lastIdxOf (c : Char) (cs : List Char) : Option Nat :=
  ((List.range cs.length).filter (fun i => cs.getD i ' ' = c)).getLast?

/-- `os.path.splitext(p)[0]`, following `posixpath.splitext`: the
extension starts at the last dot, provided that dot comes after the last
`/` and at least one character of the basename before it is not itself a
dot (so `.cshrc` and `a/b.c/d` have no extension). -/
def splitext_stem (p : String) : String :=
  let cs := p.toList
  let sepIdx : Int := match lastIdxOf '/' cs with
    | none => -1
    | some s => s
  match lastIdxOf '.' cs with
  | none => p
  | some d =>
    if sepIdx < (d : Int) ∧ ∃ i ∈ List.range d, sepIdx < (i : Int) ∧ cs.getD i ' ' ≠ '.' then
      String.mk (cs.take d)
    else p

/-- The index path `make_dataset` derives when none is given:
`os.path.splitext(output)[0] + ".idx"`. -/
def defaultIdxPath (output : String) : String := splitext_stem output ++ ".idx"

/-- Overwrite (or create) the file at path `p` in a filesystem modelled
as a map from paths to contents. -/
def fsWrite (fs : String → Option Bytes) (p : String) (content : Bytes) :
    String → Option Bytes :=
  fun q => if q = p then some content else fs q

/-- `make_dataset` including its filesystem effect: write the log at
`output` and the index at `index_path` (defaulted from `output`), and
return the new filesystem plus the two paths, exactly the pair the
Python function returns. -/
def make_dataset_fs {α : Type _} (fs : String → Option Bytes) (records : List (List α))
    (output : String) (serializers : List (α → Bytes)) (index_path : Option String) :
    Except Err ((String → Option Bytes) × String × String) :=
  match make_dataset records serializers with
  | .error e => .error e
  | .ok (log, idxf) =>
    let ipath := index_path.getD (defaultIdxPath output)
    .ok (fsWrite (fsWrite fs output log) ipath idxf, output, ipath)

/-- `IndexedRecordDataset.defrag(output_file)` with its filesystem
effect: read the source pair at `(src, idxp)`, then rebuild through
`make_dataset` at `out` with no explicit index path (so the new index
lands at `defaultIdxPath out`).  `k` is the dataset arity.  The model
assumes `out ≠ src` (the Python code interleaves reading the source log
with writing the output log, so writing the output over the source log
would corrupt the copy; with distinct paths the net effect is
read-everything-then-write, which is what is modelled here). -/
def defrag_fs (fs : String → Option Bytes) (src idxp : String) (k : Nat) (out : String) :
    Except Err ((String → Option Bytes) × String × String) := do
  let records ← DSState.readAll ⟨fs src, fs idxp⟩ k
  make_dataset_fs fs records out (List.replicate k (fun b => b)) none

/-- Pure description of `IndexFile.quick_remove_at`'s effect on the
offset list: drop the last entry and, when `i` is not the last position,
write the former last entry over position `i`. -/
def removeSwap (offs : List Nat) (i : Nat) : List Nat :=
  if i < offs.length - 1 then offs.dropLast.set i (offs.getD (offs.length - 1) 0)
  else offs.dropLast

/-- Byte offsets at which consecutive blocks start when laid out
back-to-back from `base`. -/
def blockStarts (base : Nat) : List Bytes → List Nat
  | [] => []
  | b :: bs => base :: blockStarts (base + b.length) bs

/-- The record log `make_dataset` produces for the given per-record
field lists: reserved header then the blocks back-to-back. -/
def canonLog (fieldss : List (List Bytes)) : Bytes :=
  RESERVED ++ (fieldss.map blockBytes).flatten

/-- The offsets `make_dataset` collects for `canonLog`. -/
def canonOffs (fieldss : List (List Bytes)) : List Nat :=
  blockStarts RESERVED.length (fieldss.map blockBytes)

/-- A well-formed record block of arity `k` is stored in `log` at byte
offset `o`: `k` in-range u64 field lengths followed by payloads of
exactly those lengths, all inside the file. -/
def validBlockAt (k : Nat) (log : Bytes) (o : Nat) : Prop :=
  ∃ fields : List Bytes, fields.length = k ∧ (∀ b ∈ fields, b.length < U64MOD) ∧
    o + (blockBytes fields).length ≤ log.length ∧
    (log.drop o).take (blockBytes fields).length = blockBytes fields

/-- The invariant of claim C6 for an on-disk (log, index) pair of arity
`k`: the index file is exactly a stored count equal to its number of
entries followed by those entries, and every entry lies strictly inside
the log at the start of a well-formed block. -/
def IndexInv (k : Nat) (log idxf : Bytes) : Prop :=
  ∃ offs : List Nat, offs.length < U64MOD ∧ (∀ o ∈ offs, o < U64MOD) ∧
    idxf = indexBytes offs ∧ ∀ o ∈ offs, o < log.length ∧ validBlockAt k log o

/-- Dataset-state form of the C6 invariant: whenever the index file
exists, the log exists as well and the pair satisfies `IndexInv`. -/
def StInv (k : Nat) (st : DSState) : Prop :=
  ∀ f, st.idx = some f → ∃ log, st.log = some log ∧ IndexInv k log f

/-- A reachable source dataset for compaction (claim C4): a record log
of well-formed arity-`k` blocks in write order, and an index whose
entries are the starts of a duplicate-free selection (`live`) of those
blocks, in arbitrary order. -/
structure SourceModel (k : Nat) where
  fieldss : List (List Bytes)
  live : List Nat
  harity : ∀ r ∈ fieldss, r.length = k
  hfield : ∀ r ∈ fieldss, ∀ b ∈ r, b.length < U64MOD
  hnodup : live.Nodup
  hlive : ∀ j ∈ live, j < fieldss.length
  hcount : live.length < U64MOD

/-- The source record log described by a `SourceModel`. -/
def SourceModel.srcLog {k : Nat} (M : SourceModel k) : Bytes := canonLog M.fieldss

/-- The source index entries described by a `SourceModel`. -/
def SourceModel.srcOffs {k : Nat} (M : SourceModel k) : List Nat :=
  M.live.map (fun j => (canonOffs M.fieldss).getD j 0)

/-- The source index file described by a `SourceModel`. -/
def SourceModel.srcIdx {k : Nat} (M : SourceModel k) : Bytes := indexBytes M.srcOffs

end EzRecords

deriving instance DecidableEq for Except

namespace EzRecords

/-- Field values of the concrete scenario of claim C2: an integer or a
UTF-8 byte string. -/
inductive FVal where
  | vint : Nat → FVal
  | vstr : Bytes → FVal
deriving DecidableEq

/-- First-field encoder of the C2 scenario: int to 8-byte little-endian. -/
def encFst : FVal → Bytes
  | .vint n => u64le n
  | .vstr s => s

/-- First-field decoder of the C2 scenario. -/
def decFst (bs : Bytes) : FVal := .vint (leVal bs)

/-- Second-field encoder of the C2 scenario: string to its UTF-8 bytes. -/
def encSnd : FVal → Bytes
  | .vint n => u64le n
  | .vstr s => s

/-- Second-field decoder of the C2 scenario. -/
def decSnd (bs : Bytes) : FVal := .vstr bs

/-- The records `[(1, "a"), (2, "bb"), (3, "ccc")]` of the C2 scenario
("a" = byte 97, "b" = 98, "c" = 99). -/
def C2records : List (List FVal) :=
  [[.vint 1, .vstr [97]], [.vint 2, .vstr [98, 98]], [.vint 3, .vstr [99, 99, 99]]]

/-- Record log the C2 scenario builds. -/
def C2log : Bytes :=
  RESERVED ++ blockBytes [u64le 1, [97]] ++ blockBytes [u64le 2, [98, 98]]
    ++ blockBytes [u64le 3, [99, 99, 99]]

/-- Index file the C2 scenario builds (blocks start at 1024, 1049, 1075). -/
def C2idx : Bytes := indexBytes [1024, 1049, 1075]

/-- Source record log of the C4 counterexample: two one-field records. -/
def cSrcLog : Bytes := RESERVED ++ blockBytes [[5]] ++ blockBytes [[7]]

/-- Source index of the C4 counterexample: only the second record is
live (the first was quick-removed), so the log holds orphaned bytes. -/
def cSrcIdx : Bytes := indexBytes [1033]

/-- Source filesystem of the C4 counterexample: log at `data.rec`,
index at `data.idx`. -/
def cFs : String → Option Bytes :=
  fun p => if p = "data.rec" then some cSrcLog
    else if p = "data.idx" then some cSrcIdx else none

/-- Concrete source model of the C4 witness: two one-field records, only
the second one live (its block starts at byte 1033), so bytes
1024..1033 of the log are orphaned. -/
def cModel : SourceModel 1 where
  fieldss := [[[5]], [[7]]]
  live := [1]
  harity := by decide
  hfield := by decide
  hnodup := by decide
  hlive := by decide
  hcount := by decide

end EzRecords

namespace EzRecords

theorem length_leBytes (w n : Nat) : (leBytes w n).length = w := by
  induction w generalizing n with
  | zero => rfl
  | succ k ih => simp [leBytes, ih]

theorem length_u64le (n : Nat) : (u64le n).length = 8 := length_leBytes 8 n

theorem leVal_leBytes (w n : Nat) : leVal (leBytes w n) = n % 256 ^ w := by
  induction w generalizing n with
  | zero => simp [leBytes, leVal, Nat.mod_one]
  | succ k ih =>
    simp only [leBytes, leVal, ih]
    have h1 : 256 ^ (k + 1) = 256 * 256 ^ k := by ring
    rw [h1, Nat.mod_mul]

theorem leVal_u64le {n : Nat} (h : n < U64MOD) : leVal (u64le n) = n := by
  have : (256 : Nat) ^ 8 = 2 ^ 64 := by norm_num
  rw [u64le, leVal_leBytes, this]
  exact Nat.mod_eq_of_lt h

theorem readU64_exact (pre post : Bytes) {v : Nat} (hv : v < U64MOD) :
    readU64 (pre ++ u64le v ++ post) pre.length = .ok v := by
  have hlen : pre.length + 8 ≤ (pre ++ u64le v ++ post).length := by
    simp [length_u64le]
  rw [readU64, if_pos hlen]
  have hdrop : (pre ++ u64le v ++ post).drop pre.length = u64le v ++ post := by
    rw [List.append_assoc, List.drop_left]
  have htake : (u64le v ++ post).take 8 = u64le v := by
    rw [← length_u64le v, List.take_left]
  rw [hdrop, htake, leVal_u64le hv]

theorem length_flatten_u64 (offs : List Nat) :
    ((offs.map u64le).flatten).length = 8 * offs.length := by
  induction offs with
  | nil => rfl
  | cons o os ih =>
    simp only [List.map_cons, List.flatten_cons, List.length_append, length_u64le, ih,
      List.length_cons]
    ring

theorem length_indexBytes (offs : List Nat) :
    (indexBytes offs).length = 8 + 8 * offs.length := by
  rw [indexBytes, List.length_append, length_u64le, length_flatten_u64]

theorem flatten_u64_drop (offs : List Nat) (i : Nat) (hi : i < offs.length) :
    ((offs.map u64le).flatten).drop (8 * i)
      = u64le (offs.getD i 0) ++ ((offs.drop (i + 1)).map u64le).flatten := by
  induction offs generalizing i with
  | nil => simp at hi
  | cons o os ih =>
    cases i with
    | zero => simp
    | succ j =>
      have hj : j < os.length := by simpa using hi
      have h8 : 8 * (j + 1) = (u64le o).length + 8 * j := by
        rw [length_u64le]; ring
      simp only [List.map_cons, List.flatten_cons, List.getD_cons_succ, List.drop_succ_cons]
      rw [h8, List.drop_append, ih j hj]

theorem length_indexBytes_ok {offs : List Nat} (h : offs.length < U64MOD) :
    IndexFile.length (some (indexBytes offs)) = .ok offs.length := by
  have h0 := readU64_exact [] ((offs.map u64le).flatten) h
  simpa [IndexFile.length, indexBytes] using h0

theorem getD_lt_of_forall {offs : List Nat} {i : Nat} (hi : i < offs.length)
    (ho : ∀ o ∈ offs, o < U64MOD) : offs.getD i 0 < U64MOD := by
  rw [List.getD_eq_getElem offs 0 hi]
  exact ho _ (List.getElem_mem hi)

theorem get_unfold_some {f : Bytes} {n : Nat}
    (hn : IndexFile.length (some f) = .ok n) (i : Int) :
    IndexFile.get (some f) i
      = if i < (n : Int) then
          (if 0 ≤ (i + 1) * 8 then readU64 f ((i + 1) * 8).toNat else .error .ioError)
        else .error .bounds := by
  unfold IndexFile.get
  rw [hn]
  rfl

theorem get_unfold_none (i : Int) :
    IndexFile.get none i
      = if i < (0 : Int) then Except.error Err.ioError else .error .bounds := by
  unfold IndexFile.get
  rfl

theorem get_indexBytes {offs : List Nat} (i : Nat) (hi : i < offs.length)
    (hn : offs.length < U64MOD) (ho : ∀ o ∈ offs, o < U64MOD) :
    IndexFile.get (some (indexBytes offs)) (i : Int) = .ok (offs.getD i 0) := by
  have hsplit : indexBytes offs
      = (u64le offs.length ++ (offs.map u64le).flatten.take (8 * i))
        ++ u64le (offs.getD i 0) ++ ((offs.drop (i + 1)).map u64le).flatten := by
    simp only [List.append_assoc, ← flatten_u64_drop offs i hi, List.take_append_drop,
      indexBytes]
  have hprelen : (u64le offs.length ++ (offs.map u64le).flatten.take (8 * i)).length
      = 8 * i + 8 := by
    simp only [List.length_append, length_u64le, List.length_take, length_flatten_u64]
    omega
  have harith : (((i : Int) + 1) * 8).toNat = 8 * i + 8 := by omega
  have hread : readU64 (indexBytes offs) (((i : Int) + 1) * 8).toNat = .ok (offs.getD i 0) := by
    rw [harith, hsplit, ← hprelen]
    exact readU64_exact _ _ (getD_lt_of_forall hi ho)
  have hlt : ((i : Nat) : Int) < ((offs.length : Nat) : Int) := by exact_mod_cast hi
  rw [get_unfold_some (length_indexBytes_ok hn), if_pos hlt,
    if_pos (by positivity : (0 : Int) ≤ ((i : Int) + 1) * 8), hread]

theorem get_of_out_of_bounds {file? : Option Bytes} {n : Nat}
    (hn : IndexFile.length file? = .ok n) {i : Int} (hi : (n : Int) ≤ i) :
    IndexFile.get file? i = .error .bounds := by
  cases file? with
  | none =>
    have h0 : n = 0 := by
      simpa [IndexFile.length] using hn.symm
    rw [get_unfold_none, if_neg (by omega)]
  | some f => rw [get_unfold_some hn, if_neg (not_lt.mpr hi)]

theorem get_neg_one {f : Bytes} {n : Nat} (hn : IndexFile.length (some f) = .ok n) :
    IndexFile.get (some f) (-1) = .ok n := by
  have hlt : (-1 : Int) < (n : Int) := by omega
  rw [get_unfold_some hn, if_pos hlt, if_pos (by norm_num : (0 : Int) ≤ (-1 + 1) * 8)]
  show readU64 f 0 = .ok n
  exact hn

theorem writeAt_zero (f b : Bytes) : writeAt f 0 b = b ++ f.drop b.length := by
  simp [writeAt]

theorem writeAt_header {a b : Bytes} (rest : Bytes) (h : b.length = a.length) :
    writeAt (a ++ rest) 0 b = b ++ rest := by
  rw [writeAt_zero, h, List.drop_left]

theorem writeAt_append_right (a f : Bytes) (p : Nat) (b : Bytes) :
    writeAt (a ++ f) (a.length + p) b = a ++ writeAt f p b := by
  have h1 : a.length + p + b.length = a.length + (p + b.length) := by ring
  simp only [writeAt, List.take_append, h1, List.drop_append, List.length_append,
    Nat.add_sub_add_left, List.append_assoc]

theorem writeAt_flatten_u64 (offs : List Nat) (i : Nat) (v : Nat) :
    ∀ _ : i < offs.length,
    writeAt ((offs.map u64le).flatten) (8 * i) (u64le v)
      = ((offs.set i v).map u64le).flatten := by
  induction offs generalizing i with
  | nil => intro hi; simp at hi
  | cons o os ih =>
    intro hi
    cases i with
    | zero =>
      simp only [Nat.mul_zero, List.map_cons, List.flatten_cons, List.set_cons_zero]
      exact writeAt_header _ (by rw [length_u64le, length_u64le])
    | succ j =>
      have hj : j < os.length := by simpa using hi
      have h8 : 8 * (j + 1) = (u64le o).length + 8 * j := by rw [length_u64le]; ring
      simp only [List.map_cons, List.flatten_cons, List.set_cons_succ]
      rw [h8, writeAt_append_right, ih j hj]

theorem flatten_u64_take (offs : List Nat) (i : Nat) :
    ((offs.map u64le).flatten).take (8 * i) = ((offs.take i).map u64le).flatten := by
  induction offs generalizing i with
  | nil => simp
  | cons o os ih =>
    cases i with
    | zero => simp
    | succ j =>
      have h8 : 8 * (j + 1) = (u64le o).length + 8 * j := by rw [length_u64le]; ring
      simp only [List.map_cons, List.flatten_cons, List.take_succ_cons]
      rw [h8, List.take_append, ih j]

theorem removeSwap_length (offs : List Nat) (i : Nat) :
    (removeSwap offs i).length = offs.length - 1 := by
  unfold removeSwap
  split <;> simp

theorem quick_remove_unfold {f : Bytes} {n : Nat}
    (hn : IndexFile.length (some f) = .ok n) (i : Nat) :
    IndexFile.quick_remove_at (some f) i
      = if f.length < 8 then .error .ioError
        else
          (if n = 0 then Except.error Err.structError
           else .ok (writeAt
             (if i < n - 1 then
                writeAt (f.take (f.length - 8)) (8 * (i + 1)) ((f.drop (f.length - 8)).take 8)
              else f.take (f.length - 8)) 0 (u64le (n - 1)))) := by
  unfold IndexFile.quick_remove_at
  rw [hn]
  rfl

theorem quick_remove_indexBytes (offs : List Nat) (i : Nat) (h1 : offs ≠ [])
    (hn : offs.length < U64MOD) :
    IndexFile.quick_remove_at (some (indexBytes offs)) i
      = .ok (indexBytes (removeSwap offs i)) := by
  have hpos : 0 < offs.length := List.length_pos.mpr h1
  have hflen : (indexBytes offs).length = 8 + 8 * offs.length := length_indexBytes offs
  have hnot8 : ¬ (indexBytes offs).length < 8 := by omega
  have hsub : (indexBytes offs).length - 8 = 8 * offs.length := by omega
  -- the truncated file: header plus all entries but the last
  have htake : (indexBytes offs).take ((indexBytes offs).length - 8)
      = u64le offs.length ++ ((offs.dropLast.map u64le).flatten) := by
    rw [hsub, indexBytes]
    have h8 : 8 * offs.length = (u64le offs.length).length + 8 * (offs.length - 1) := by
      rw [length_u64le]; omega
    rw [h8, List.take_append, flatten_u64_take, List.dropLast_eq_take]
  -- the 8-byte buffer: the last entry
  have hbuf : ((indexBytes offs).drop ((indexBytes offs).length - 8)).take 8
      = u64le (offs.getD (offs.length - 1) 0) := by
    rw [hsub, indexBytes]
    have h8 : 8 * offs.length = (u64le offs.length).length + 8 * (offs.length - 1) := by
      rw [length_u64le]; omega
    rw [h8, List.drop_append, flatten_u64_drop offs (offs.length - 1) (by omega)]
    have hd : offs.drop (offs.length - 1 + 1) = [] := by
      apply List.drop_eq_nil_of_le
      omega
    rw [hd]
    simp only [List.map_nil, List.flatten_nil, List.append_nil]
    exact List.take_of_length_le (by rw [length_u64le])
  rw [quick_remove_unfold (length_indexBytes_ok hn) i, if_neg hnot8,
    if_neg (by omega : ¬ offs.length = 0)]
  congr 1
  by_cases hcase : i < offs.length - 1
  · rw [if_pos hcase, htake, hbuf]
    have h8 : 8 * (i + 1) = (u64le offs.length).length + 8 * i := by
      rw [length_u64le]; ring
    rw [h8, writeAt_append_right,
      writeAt_flatten_u64 offs.dropLast i _ (by simp; omega),
      writeAt_header _ (by rw [length_u64le, length_u64le]),
      indexBytes, removeSwap, if_pos hcase]
    have hlen2 : (offs.dropLast.set i (offs.getD (offs.length - 1) 0)).length
        = offs.length - 1 := by simp
    rw [hlen2]
  · rw [if_neg hcase, htake,
      writeAt_header _ (by rw [length_u64le, length_u64le]),
      indexBytes, removeSwap, if_neg hcase]
    have hlen2 : offs.dropLast.length = offs.length - 1 := by simp
    rw [hlen2]

theorem bind_ok_eq {β γ : Type _} (a : β) (f : β → Except Err γ) :
    (Except.ok a >>= f) = f a := rfl

theorem bind_error_eq {β γ : Type _} (e : Err) (f : β → Except Err γ) :
    ((Except.error e : Except Err β) >>= f) = .error e := rfl

theorem readU64_exact_assoc (pre post : Bytes) {v : Nat} (hv : v < U64MOD) :
    readU64 (pre ++ (u64le v ++ post)) pre.length = .ok v := by
  have h := readU64_exact pre post hv
  rwa [List.append_assoc] at h

theorem readLens_block (lens : List Nat) : ∀ pre post : Bytes,
    (∀ l ∈ lens, l < U64MOD) →
    readLens (pre ++ ((lens.map u64le).flatten ++ post)) pre.length lens.length
      = .ok (lens, pre.length + 8 * lens.length) := by
  induction lens with
  | nil =>
    intro pre post _
    simp [readLens]
  | cons l ls ih =>
    intro pre post h
    have hfile : pre ++ (((l :: ls).map u64le).flatten ++ post)
        = pre ++ (u64le l ++ ((ls.map u64le).flatten ++ post)) := by
      simp [List.append_assoc]
    have hread : readU64 (pre ++ (((l :: ls).map u64le).flatten ++ post)) pre.length
        = .ok l := by
      rw [hfile]
      exact readU64_exact_assoc pre _ (h l (by simp))
    have hfile2 : pre ++ (((l :: ls).map u64le).flatten ++ post)
        = (pre ++ u64le l) ++ ((ls.map u64le).flatten ++ post) := by
      simp [List.append_assoc]
    have hih := ih (pre ++ u64le l) post (fun x hx => h x (by simp [hx]))
    rw [← hfile2] at hih
    have hplen : (pre ++ u64le l).length = pre.length + 8 := by
      simp [length_u64le]
    rw [hplen] at hih
    simp only [List.length_cons, readLens, hread, bind_ok_eq, hih]
    have harith : pre.length + 8 + 8 * ls.length = pre.length + 8 * (ls.length + 1) := by
      ring
    rw [harith]

theorem readPayloads_block (fields : List Bytes) : ∀ pre post : Bytes,
    readPayloads (pre ++ (fields.flatten ++ post)) pre.length (fields.map List.length)
      = fields := by
  induction fields with
  | nil =>
    intro pre post
    simp [readPayloads]
  | cons b bs ih =>
    intro pre post
    have hfile : pre ++ ((b :: bs).flatten ++ post)
        = pre ++ (b ++ (bs.flatten ++ post)) := by
      simp [List.append_assoc]
    simp only [List.map_cons, readPayloads]
    have hhead : List.take b.length (List.drop pre.length (pre ++ ((b :: bs).flatten ++ post)))
        = b := by
      rw [hfile, List.drop_left, List.take_left]
    have hmin : (pre.length + b.length) ⊓ (pre ++ ((b :: bs).flatten ++ post)).length
        = (pre ++ b).length := by
      simp only [List.length_append, List.flatten_cons]
      rw [min_eq_left (by omega)]
    have hassoc : pre ++ ((b :: bs).flatten ++ post) = (pre ++ b) ++ (bs.flatten ++ post) := by
      simp [List.append_assoc]
    have htail : readPayloads (pre ++ ((b :: bs).flatten ++ post)) (pre ++ b).length
        (bs.map List.length) = bs := by
      rw [hassoc]
      exact ih (pre ++ b) post
    rw [hhead, hmin, htail]

theorem readRecord_block {α : Type _} (ds : List (Bytes → α)) (pre post : Bytes)
    (fields : List Bytes) (hlen : fields.length = ds.length)
    (hb : ∀ b ∈ fields, b.length < U64MOD) :
    readRecord (pre ++ (blockBytes fields ++ post)) ds pre.length
      = .ok (List.zipWith (fun d b => d b) ds fields) := by
  have hmap : fields.map (fun b => u64le b.length) = (fields.map List.length).map u64le := by
    rw [List.map_map]
    rfl
  have hfile : pre ++ (blockBytes fields ++ post)
      = pre ++ (((fields.map List.length).map u64le).flatten ++ (fields.flatten ++ post)) := by
    rw [blockBytes, hmap]
    simp [List.append_assoc]
  have hlens := readLens_block (fields.map List.length) pre (fields.flatten ++ post)
    (by
      intro l hl
      obtain ⟨b, hbmem, rfl⟩ := List.mem_map.mp hl
      exact hb b hbmem)
  rw [← hfile] at hlens
  have hcount : (fields.map List.length).length = ds.length := by simpa using hlen
  rw [hcount] at hlens
  have hheadlen : (pre ++ ((fields.map List.length).map u64le).flatten).length
      = pre.length + 8 * ds.length := by
    rw [List.length_append, length_flatten_u64, List.length_map, hlen]
  have hpay := readPayloads_block fields
    (pre ++ ((fields.map List.length).map u64le).flatten) post
  rw [hheadlen] at hpay
  have hassoc : (pre ++ ((fields.map List.length).map u64le).flatten)
      ++ (fields.flatten ++ post) = pre ++ (blockBytes fields ++ post) := by
    rw [blockBytes, hmap]
    simp [List.append_assoc]
  rw [hassoc] at hpay
  unfold readRecord
  rw [hlens, bind_ok_eq]
  show Except.ok (List.zipWith (fun d b => d b) ds
    (readPayloads (pre ++ (blockBytes fields ++ post)) (pre.length + 8 * ds.length)
      (fields.map List.length))) = _
  rw [hpay]

theorem blockStarts_length (bs : List Bytes) : ∀ base, (blockStarts base bs).length = bs.length := by
  induction bs with
  | nil => intro base; rfl
  | cons b bs ih =>
    intro base
    simp [blockStarts, ih]

theorem blockStarts_getD (bs : List Bytes) : ∀ base i, i < bs.length →
    (blockStarts base bs).getD i 0 = base + ((bs.take i).map List.length).sum := by
  induction bs with
  | nil =>
    intro base i hi
    simp at hi
  | cons b bs ih =>
    intro base i hi
    cases i with
    | zero => simp [blockStarts]
    | succ j =>
      have hj : j < bs.length := by simpa using hi
      simp only [blockStarts, List.getD_cons_succ, List.take_succ_cons, List.map_cons,
        List.sum_cons]
      rw [ih (base + b.length) j hj]
      ring

theorem flatten_decomp (blocks : List Bytes) (j : Nat) (hj : j < blocks.length) :
    blocks.flatten
      = (blocks.take j).flatten ++ (blocks.getD j [] ++ (blocks.drop (j + 1)).flatten) := by
  conv_lhs => rw [← List.take_append_drop j blocks]
  rw [List.flatten_append, List.drop_eq_getElem_cons hj, List.flatten_cons,
    List.getD_eq_getElem blocks [] hj]

theorem getD_map_blockBytes (fieldss : List (List Bytes)) (j : Nat) (hj : j < fieldss.length) :
    (fieldss.map blockBytes).getD j [] = blockBytes (fieldss.getD j []) := by
  have hj2 : j < (fieldss.map blockBytes).length := by simpa using hj
  rw [List.getD_eq_getElem _ _ hj2, List.getElem_map, ← List.getD_eq_getElem _ _ hj]

theorem readRecord_at_start {α : Type _} (fieldss : List (List Bytes)) (j : Nat)
    (hj : j < fieldss.length) (ds : List (Bytes → α))
    (hk : (fieldss.getD j []).length = ds.length)
    (hb : ∀ b ∈ fieldss.getD j [], b.length < U64MOD) :
    readRecord (canonLog fieldss) ds ((canonOffs fieldss).getD j 0)
      = .ok (List.zipWith (fun d b => d b) ds (fieldss.getD j [])) := by
  have hj2 : j < (fieldss.map blockBytes).length := by simpa using hj
  have hsplit : canonLog fieldss
      = (RESERVED ++ ((fieldss.map blockBytes).take j).flatten)
        ++ (blockBytes (fieldss.getD j [])
            ++ ((fieldss.map blockBytes).drop (j + 1)).flatten) := by
    rw [canonLog, flatten_decomp _ j hj2, getD_map_blockBytes fieldss j hj,
      List.append_assoc]
  have hpre : (RESERVED ++ ((fieldss.map blockBytes).take j).flatten).length
      = (canonOffs fieldss).getD j 0 := by
    rw [canonOffs, blockStarts_getD _ _ j hj2, List.length_append, List.length_flatten,
      List.map_take]
  rw [hsplit, ← hpre]
  exact readRecord_block ds _ _ _ hk hb

theorem DSState_get_resolve {α : Type _} (log? : Option Bytes) (idxf : Bytes)
    (ds : List (Bytes → α)) (i : Int) {offset : Nat}
    (hoff : IndexFile.get (some idxf) i = .ok offset) :
    DSState.get ⟨log?, some idxf⟩ (some ds) i
      = match log? with
        | none => .error .ioError
        | some log => readRecord log ds offset := by
  show (IndexFile.get (some idxf) i >>= fun offset =>
      match log? with
      | none => Except.error Err.ioError
      | some log => readRecord log ds offset) = _
  rw [hoff, bind_ok_eq]

theorem DSState_get_err {α : Type _} (log? : Option Bytes) (idxf? : Option Bytes)
    (ds : List (Bytes → α)) (i : Int) {e : Err}
    (hoff : IndexFile.get idxf? i = .error e) :
    DSState.get ⟨log?, idxf?⟩ (some ds) i = .error e := by
  show (IndexFile.get idxf? i >>= fun offset =>
      match log? with
      | none => Except.error Err.ioError
      | some log => readRecord log ds offset) = _
  rw [hoff, bind_error_eq]

theorem get_with_offs {α : Type _} (fieldss : List (List Bytes)) (offs : List Nat)
    (ds : List (Bytes → α)) (i j : Nat) (hi : i < offs.length) (hj : j < fieldss.length)
    (hoffs : offs.getD i 0 = (canonOffs fieldss).getD j 0)
    (hn : offs.length < U64MOD) (ho : ∀ o ∈ offs, o < U64MOD)
    (hk : (fieldss.getD j []).length = ds.length)
    (hb : ∀ b ∈ fieldss.getD j [], b.length < U64MOD) :
    DSState.get ⟨some (canonLog fieldss), some (indexBytes offs)⟩ (some ds) (i : Int)
      = .ok (List.zipWith (fun d b => d b) ds (fieldss.getD j [])) := by
  rw [DSState_get_resolve _ _ _ _ (get_indexBytes i hi hn ho)]
  show readRecord (canonLog fieldss) ds (offs.getD i 0) = _
  rw [hoffs]
  exact readRecord_at_start fieldss j hj ds hk hb

theorem length_blockBytes (fields : List Bytes) :
    (blockBytes fields).length = 8 * fields.length + (fields.map List.length).sum := by
  have hmap : fields.map (fun b => u64le b.length) = (fields.map List.length).map u64le := by
    rw [List.map_map]
    rfl
  rw [blockBytes, List.length_append, hmap, length_flatten_u64, List.length_map,
    List.length_flatten]

theorem length_canonLog (fieldss : List (List Bytes)) :
    (canonLog fieldss).length
      = RESERVED.length + ((fieldss.map blockBytes).map List.length).sum := by
  rw [canonLog, List.length_append, List.length_flatten]

theorem blockStarts_getD_add_le (bs : List Bytes) : ∀ base j, j < bs.length →
    (blockStarts base bs).getD j 0 + (bs.getD j []).length
      ≤ base + (bs.map List.length).sum := by
  induction bs with
  | nil =>
    intro base j hj
    simp at hj
  | cons b bs ih =>
    intro base j hj
    cases j with
    | zero =>
      simp only [blockStarts, List.getD_cons_zero, List.map_cons, List.sum_cons]
      omega
    | succ m =>
      have hm : m < bs.length := by simpa using hj
      simp only [blockStarts, List.getD_cons_succ, List.map_cons, List.sum_cons]
      have := ih (base + b.length) m hm
      omega

theorem zipWith_replicate_id (r : List Bytes) : ∀ k, r.length = k →
    List.zipWith (fun s x => s x) (List.replicate k (fun b : Bytes => b)) r = r := by
  induction r with
  | nil =>
    intro k _
    simp
  | cons x xs ih =>
    intro k hk
    cases k with
    | zero => simp at hk
    | succ j =>
      simp only [List.replicate_succ, List.zipWith_cons_cons]
      rw [ih j (by simpa using hk)]

theorem forall₂_getD {α β : Type _} {R : α → β → Prop} {l1 : List α} {l2 : List β}
    (h : List.Forall₂ R l1 l2) : ∀ i, i < l1.length → ∀ d1 d2,
    R (l1.getD i d1) (l2.getD i d2) := by
  induction h with
  | nil =>
    intro i hi
    simp at hi
  | cons hr hrest ih =>
    intro i hi d1 d2
    cases i with
    | zero => simpa using hr
    | succ j =>
      simp only [List.getD_cons_succ]
      exact ih j (by simpa using hi) d1 d2

theorem buildLoop_ok {α : Type _} (ss : List (α → Bytes)) :
    ∀ (records : List (List α)) (log0 : Bytes) (offs0 : List Nat) (log1 : Bytes)
      (offs1 : List Nat),
    buildLoop ss records log0 offs0 = .ok (log1, offs1) →
    ∃ fieldss : List (List Bytes),
      List.Forall₂ (fun r f => encodeRecord ss r = .ok f) records fieldss ∧
      (∀ f ∈ fieldss, ∀ b ∈ f, b.length < U64MOD) ∧
      log1 = log0 ++ (fieldss.map blockBytes).flatten ∧
      offs1 = offs0 ++ blockStarts log0.length (fieldss.map blockBytes) := by
  intro records
  induction records with
  | nil =>
    intro log0 offs0 log1 offs1 h
    simp only [buildLoop, Except.ok.injEq, Prod.mk.injEq] at h
    obtain ⟨h1, h2⟩ := h
    exact ⟨[], .nil, by simp, by simp [h1.symm], by simp [blockStarts, h2.symm]⟩
  | cons r rs ih =>
    intro log0 offs0 log1 offs1 h
    simp only [buildLoop] at h
    cases henc : encodeRecord ss r with
    | error e =>
      rw [henc, bind_error_eq] at h
      exact Except.noConfusion h
    | ok fields =>
      rw [henc, bind_ok_eq] at h
      by_cases hpb : ∀ b ∈ fields, b.length < U64MOD
      · unfold packBlock at h
        rw [if_pos hpb, bind_ok_eq] at h
        obtain ⟨fieldss, hf2, hbnd, hlog, hoffs⟩ :=
          ih (log0 ++ blockBytes fields) (offs0 ++ [log0.length]) log1 offs1 h
        refine ⟨fields :: fieldss, .cons henc hf2, ?_, ?_, ?_⟩
        · intro f hf b hb
          rcases List.mem_cons.mp hf with rfl | hf2
          · exact hpb b hb
          · exact hbnd f hf2 b hb
        · rw [hlog]
          simp [List.append_assoc]
        · rw [hoffs]
          simp [blockStarts, List.append_assoc, List.length_append]
      · unfold packBlock at h
        rw [if_neg hpb, bind_error_eq] at h
        exact Except.noConfusion h

theorem make_dataset_ok {α : Type _} {records : List (List α)} {ss : List (α → Bytes)}
    {log idxf : Bytes} (h : make_dataset records ss = .ok (log, idxf)) :
    ∃ fieldss : List (List Bytes),
      List.Forall₂ (fun r f => encodeRecord ss r = .ok f) records fieldss ∧
      (∀ f ∈ fieldss, ∀ b ∈ f, b.length < U64MOD) ∧
      log = canonLog fieldss ∧ idxf = indexBytes (canonOffs fieldss) ∧
      fieldss.length < U64MOD ∧ (∀ o ∈ canonOffs fieldss, o < U64MOD) := by
  unfold make_dataset at h
  cases hbl : buildLoop ss records RESERVED [] with
  | error e =>
    rw [hbl, bind_error_eq] at h
    exact Except.noConfusion h
  | ok p =>
    obtain ⟨log0, offs0⟩ := p
    rw [hbl, bind_ok_eq] at h
    replace h : (do
        let idxf2 ← IndexFile.write offs0
        Except.ok (log0, idxf2) : Except Err (Bytes × Bytes)) = .ok (log, idxf) := h
    obtain ⟨fieldss, hf2, hbnd, hlog, hoffs⟩ :=
      buildLoop_ok ss records RESERVED [] log0 offs0 hbl
    have hoffs2 : offs0 = canonOffs fieldss := by
      rw [hoffs, canonOffs, List.nil_append]
    by_cases hw : offs0.length < U64MOD ∧ ∀ o ∈ offs0, o < U64MOD
    · unfold IndexFile.write at h
      rw [if_pos hw, bind_ok_eq] at h
      simp only [Except.ok.injEq, Prod.mk.injEq] at h
      obtain ⟨h1, h2⟩ := h
      have hcnt : offs0.length = fieldss.length := by
        rw [hoffs2, canonOffs, blockStarts_length, List.length_map]
      refine ⟨fieldss, hf2, hbnd, by rw [← h1, hlog, canonLog], ?_, ?_, ?_⟩
      · rw [← h2, hoffs2]
      · rw [← hcnt]
        exact hw.1
      · rw [← hoffs2]
        exact hw.2
    · unfold IndexFile.write at h
      rw [if_neg hw, bind_error_eq] at h
      exact Except.noConfusion h

theorem buildLoop_id (k : Nat) (recs : List (List Bytes)) :
    ∀ log0 offs0,
    (∀ r ∈ recs, r.length = k) → (∀ r ∈ recs, ∀ b ∈ r, b.length < U64MOD) →
    buildLoop (List.replicate k (fun b => b)) recs log0 offs0
      = .ok (log0 ++ (recs.map blockBytes).flatten,
             offs0 ++ blockStarts log0.length (recs.map blockBytes)) := by
  induction recs with
  | nil =>
    intro log0 offs0 _ _
    simp [buildLoop, blockStarts]
  | cons r rs ih =>
    intro log0 offs0 hk hb
    have henc : encodeRecord (List.replicate k (fun b : Bytes => b)) r = .ok r := by
      unfold encodeRecord
      rw [if_pos (by simp [hk r (by simp)]), zipWith_replicate_id r k (hk r (by simp))]
    have hpb : ∀ b ∈ r, b.length < U64MOD := hb r (by simp)
    simp only [buildLoop, henc, bind_ok_eq]
    unfold packBlock
    rw [if_pos hpb, bind_ok_eq,
      ih (log0 ++ blockBytes r) (offs0 ++ [log0.length])
        (fun x hx => hk x (by simp [hx])) (fun x hx => hb x (by simp [hx]))]
    simp [blockStarts, List.append_assoc, List.length_append]

theorem canonOffs_length (fieldss : List (List Bytes)) :
    (canonOffs fieldss).length = fieldss.length := by
  rw [canonOffs, blockStarts_length, List.length_map]

theorem decode_encode {α : Type _} {ds : List (Bytes → α)} {ss : List (α → Bytes)}
    (hinv : List.Forall₂ (fun d s => ∀ v, d (s v) = v) ds ss) :
    ∀ r : List α, r.length = ss.length →
    List.zipWith (fun d b => d b) ds (List.zipWith (fun s x => s x) ss r) = r := by
  induction hinv with
  | nil =>
    intro r hr
    have : r = [] := List.length_eq_zero.mp (by simpa using hr)
    simp [this]
  | cons hds hrest ih =>
    intro r hr
    cases r with
    | nil => simp at hr
    | cons x xs =>
      simp only [List.zipWith_cons_cons]
      rw [hds x, ih xs (by simpa using hr)]

/-- C1: for a finite sequence of records of fixed arity `k` and encoder
and decoder lists of length `k` where each decoder inverts its encoder,
a successful `make_dataset` build followed by `IndexedRecordDataset.get`
at any position `i < n` returns record `i` unchanged, every field value
reproduced exactly and in the original order. -/
theorem C1_build_get_roundtrip {α : Type _} (records : List (List α)) (k : Nat)
    (ss : List (α → Bytes)) (ds : List (Bytes → α))
    (hss : ss.length = k) (hds : ds.length = k)
    (hrec : ∀ r ∈ records, r.length = k)
    (hinv : List.Forall₂ (fun (d : Bytes → α) (s : α → Bytes) => ∀ v, d (s v) = v) ds ss)
    (log idxf : Bytes) (hok : make_dataset records ss = .ok (log, idxf)) :
    ∀ i, i < records.length → ∀ dflt,
      DSState.get ⟨some log, some idxf⟩ (some ds) ((i : Nat) : Int)
        = .ok (records.getD i dflt) := by
  intro i hi dflt
  obtain ⟨fieldss, hf2, hbnd, hlog, hidx, hcnt, hob⟩ := make_dataset_ok hok
  have hflen : fieldss.length = records.length := hf2.length_eq.symm
  have hif : i < fieldss.length := by omega
  have hrlen : (records.getD i dflt).length = k := by
    apply hrec
    rw [List.getD_eq_getElem records dflt hi]
    exact List.getElem_mem hi
  have henc := forall₂_getD hf2 i hi dflt []
  have hfields : fieldss.getD i [] = List.zipWith (fun s x => s x) ss (records.getD i dflt) := by
    unfold encodeRecord at henc
    rw [if_pos (by omega)] at henc
    exact (Except.ok.injEq _ _).mp henc.symm
  have hklen : (fieldss.getD i []).length = ds.length := by
    rw [hfields, List.length_zipWith, hds, hss, hrlen]
    omega
  have hkb : ∀ b ∈ fieldss.getD i [], b.length < U64MOD := by
    intro b hb
    apply hbnd (fieldss.getD i []) _ b hb
    rw [List.getD_eq_getElem fieldss [] hif]
    exact List.getElem_mem hif
  rw [hlog, hidx]
  rw [get_with_offs fieldss (canonOffs fieldss) ds i i
    (by rw [canonOffs_length]; omega) hif rfl
    (by rw [canonOffs_length]; omega) hob hklen hkb]
  rw [hfields, decode_encode hinv (records.getD i dflt) (by omega)]

set_option maxRecDepth 100000 in
/-- Witness for C1 at a concrete input: arity 1, identity codecs, two
records. -/
theorem C1_build_get_roundtrip_witness :
    DSState.get ⟨some (RESERVED ++ blockBytes [[1, 2]] ++ blockBytes [[3]]),
        some (indexBytes [1024, 1034])⟩
      (some [fun b => (b : Bytes)]) ((0 : Nat) : Int) = .ok [[1, 2]] := by
  have h := C1_build_get_roundtrip [[[1, 2]], [[3]]] 1
    [fun b => (b : Bytes)] [fun b => (b : Bytes)] rfl rfl
    (by intro r hr; fin_cases hr <;> rfl)
    (List.Forall₂.cons (fun v => rfl) List.Forall₂.nil)
    (RESERVED ++ blockBytes [[1, 2]] ++ blockBytes [[3]]) (indexBytes [1024, 1034])
    (by decide)
  exact h 0 (by norm_num) []

set_option maxRecDepth 400000 in
/-- C2: the concrete scenario: arity 2, encoders int-to-8-byte-LE and
string-to-UTF-8, built from [(1,"a"), (2,"bb"), (3,"ccc")]: length is 3
and get(1) = [2,"bb"]; after quick_remove_at(0): length is 2,
get(0) = [3,"ccc"], get(1) = [2,"bb"]. -/
theorem C2_concrete_scenario :
    make_dataset C2records [encFst, encSnd] = .ok (C2log, C2idx) ∧
    IndexFile.length (some C2idx) = .ok 3 ∧
    DSState.get ⟨some C2log, some C2idx⟩ (some [decFst, decSnd]) 1
      = .ok [.vint 2, .vstr [98, 98]] ∧
    DSState.quick_remove_at ⟨some C2log, some C2idx⟩ 0
      = .ok ⟨some C2log, some (indexBytes [1075, 1049])⟩ ∧
    IndexFile.length (some (indexBytes [1075, 1049])) = .ok 2 ∧
    DSState.get ⟨some C2log, some (indexBytes [1075, 1049])⟩ (some [decFst, decSnd]) 0
      = .ok [.vint 3, .vstr [99, 99, 99]] ∧
    DSState.get ⟨some C2log, some (indexBytes [1075, 1049])⟩ (some [decFst, decSnd]) 1
      = .ok [.vint 2, .vstr [98, 98]] := by
  exact ⟨by decide, by decide, by decide, by decide, by decide, by decide, by decide⟩

theorem removeSwap_subset (offs : List Nat) (i : Nat) :
    ∀ o ∈ removeSwap offs i, o ∈ offs := by
  intro o ho
  unfold removeSwap at ho
  by_cases h : i < offs.length - 1
  · rw [if_pos h] at ho
    rcases List.mem_or_eq_of_mem_set ho with h2 | h2
    · exact (List.dropLast_sublist offs).subset h2
    · rw [h2, List.getD_eq_getElem offs 0 (by omega)]
      exact List.getElem_mem (by omega)
  · rw [if_neg h] at ho
    exact (List.dropLast_sublist offs).subset ho

theorem DSState_quick_remove_unfold {f' : Bytes} (log? idx? : Option Bytes) (i : Nat)
    (h : IndexFile.quick_remove_at idx? i = .ok f') :
    DSState.quick_remove_at ⟨log?, idx?⟩ i = .ok ⟨log?, some f'⟩ := by
  unfold DSState.quick_remove_at
  rw [h, bind_ok_eq]

theorem DSState_get_congr {α : Type _} (log? : Option Bytes) (f1 f2 : Bytes)
    (ds : List (Bytes → α)) (i1 i2 : Int) {off : Nat}
    (h1 : IndexFile.get (some f1) i1 = .ok off)
    (h2 : IndexFile.get (some f2) i2 = .ok off) :
    DSState.get ⟨log?, some f1⟩ (some ds) i1 = DSState.get ⟨log?, some f2⟩ (some ds) i2 := by
  rw [DSState_get_resolve log? f1 ds i1 h1, DSState_get_resolve log? f2 ds i2 h2]

/-- C3: swap-removal: on a well-formed index of length `n`, for
`i < n - 1` the removal succeeds, the record then readable at position
`i` is the record previously readable at position `n - 1`, and every
other surviving position reads unchanged; for `i = n - 1` the removal is
a pure truncation of the last entry with no swap. -/
theorem C3_swap_removal {α : Type _} (offs : List Nat) (n : Nat) (i : Nat)
    (hlen : offs.length = n) (hn : n < U64MOD) (ho : ∀ o ∈ offs, o < U64MOD)
    (log? : Option Bytes) (ds : List (Bytes → α)) :
    (i < n - 1 →
      DSState.quick_remove_at ⟨log?, some (indexBytes offs)⟩ i
          = .ok ⟨log?, some (indexBytes (offs.dropLast.set i (offs.getD (n - 1) 0)))⟩ ∧
      DSState.get ⟨log?, some (indexBytes (offs.dropLast.set i (offs.getD (n - 1) 0)))⟩
          (some ds) ((i : Nat) : Int)
        = DSState.get ⟨log?, some (indexBytes offs)⟩ (some ds) ((n - 1 : Nat) : Int) ∧
      (∀ j, j < n - 1 → j ≠ i →
        DSState.get ⟨log?, some (indexBytes (offs.dropLast.set i (offs.getD (n - 1) 0)))⟩
            (some ds) ((j : Nat) : Int)
          = DSState.get ⟨log?, some (indexBytes offs)⟩ (some ds) ((j : Nat) : Int))) ∧
    (i = n - 1 → 1 ≤ n →
      DSState.quick_remove_at ⟨log?, some (indexBytes offs)⟩ i
        = .ok ⟨log?, some (indexBytes offs.dropLast)⟩) := by
  constructor
  · intro hilt
    have hne : offs ≠ [] := by
      intro hemp
      rw [hemp] at hlen
      simp at hlen
      omega
    have hrs : removeSwap offs i = offs.dropLast.set i (offs.getD (n - 1) 0) := by
      unfold removeSwap
      rw [hlen, if_pos hilt]
    have hq := quick_remove_indexBytes offs i hne (by omega)
    rw [hrs] at hq
    have hsub : ∀ o ∈ offs.dropLast.set i (offs.getD (n - 1) 0), o ∈ offs := by
      rw [← hrs]
      exact removeSwap_subset offs i
    have hnewlen : (offs.dropLast.set i (offs.getD (n - 1) 0)).length = n - 1 := by
      simp [hlen]
    have hnewb : ∀ o ∈ offs.dropLast.set i (offs.getD (n - 1) 0), o < U64MOD :=
      fun o hmem => ho o (hsub o hmem)
    have hgi : (offs.dropLast.set i (offs.getD (n - 1) 0)).getD i 0
        = offs.getD (n - 1) 0 := by
      rw [List.getD_eq_getElem _ 0 (by omega)]
      exact List.getElem_set_self (by omega)
    refine ⟨DSState_quick_remove_unfold log? _ i hq, ?_, ?_⟩
    · have h1 : IndexFile.get (some (indexBytes (offs.dropLast.set i (offs.getD (n - 1) 0))))
          ((i : Nat) : Int) = .ok (offs.getD (n - 1) 0) := by
        rw [get_indexBytes i (by omega) (by omega) hnewb, hgi]
      have h2 : IndexFile.get (some (indexBytes offs)) ((n - 1 : Nat) : Int)
          = .ok (offs.getD (n - 1) 0) := by
        rw [get_indexBytes (n - 1) (by omega) (by omega) ho]
      exact DSState_get_congr log? _ _ ds _ _ h1 h2
    · intro j hj hji
      have hgj : (offs.dropLast.set i (offs.getD (n - 1) 0)).getD j 0 = offs.getD j 0 := by
        rw [List.getD_eq_getElem _ 0 (by omega), List.getElem_set_ne (by omega),
          List.getElem_dropLast, ← List.getD_eq_getElem offs 0 (by omega)]
      have h1 : IndexFile.get (some (indexBytes (offs.dropLast.set i (offs.getD (n - 1) 0))))
          ((j : Nat) : Int) = .ok (offs.getD j 0) := by
        rw [get_indexBytes j (by omega) (by omega) hnewb, hgj]
      have h2 : IndexFile.get (some (indexBytes offs)) ((j : Nat) : Int)
          = .ok (offs.getD j 0) := by
        rw [get_indexBytes j (by omega) (by omega) ho]
      exact DSState_get_congr log? _ _ ds _ _ h1 h2
  · intro hieq hn1
    have hne : offs ≠ [] := by
      intro hemp
      rw [hemp] at hlen
      simp at hlen
      omega
    have hrs : removeSwap offs i = offs.dropLast := by
      unfold removeSwap
      rw [hlen, if_neg (by omega)]
    have hq := quick_remove_indexBytes offs i hne (by omega)
    rw [hrs] at hq
    exact DSState_quick_remove_unfold log? _ i hq

/-- Witness for C3 at a concrete input: three entries, remove position 0:
the last entry is swapped into position 0 and the file truncates. -/
theorem C3_swap_removal_witness :
    DSState.quick_remove_at (⟨some RESERVED, some (indexBytes [1024, 1040, 1060])⟩ : DSState) 0
      = .ok ⟨some RESERVED, some (indexBytes [1060, 1040])⟩ := by
  have h := (@C3_swap_removal Bytes [1024, 1040, 1060] 3 0 rfl (by norm_num [U64MOD])
    (by decide) (some RESERVED) [fun b => b]).1 (by norm_num)
  exact h.1

/-- C7: reading any position at or beyond the stored length fails with a
bounds error, at the index-file level and through the dataset, returning
no data. -/
theorem C7_get_bounds_error (file? : Option Bytes) (n : Nat)
    (hn : IndexFile.length file? = .ok n) (i : Int) (hi : (n : Int) ≤ i) :
    IndexFile.get file? i = .error .bounds ∧
    ∀ (α : Type) (log? : Option Bytes) (ds : List (Bytes → α)),
      DSState.get ⟨log?, file?⟩ (some ds) i = .error .bounds := by
  refine ⟨get_of_out_of_bounds hn hi, fun α log? ds => ?_⟩
  exact DSState_get_err log? file? ds i (get_of_out_of_bounds hn hi)

/-- Witness for C7: a one-entry index read at position 5. -/
theorem C7_get_bounds_error_witness :
    IndexFile.get (some (indexBytes [1024])) 5 = .error .bounds ∧
    DSState.get ⟨some RESERVED, some (indexBytes [1024])⟩
      (some [fun b => (b : Bytes)]) 5 = .error .bounds := by
  have h := C7_get_bounds_error (some (indexBytes [1024])) 1 (by decide) 5 (by decide)
  exact ⟨h.1, h.2 Bytes (some RESERVED) [fun b => b]⟩

/-- C9: `quick_remove_at` does no bounds validation: on an index of
length `n ≥ 1`, every `i ≥ n - 1` (including every out-of-range `i ≥ n`)
succeeds as a pure truncation: the last entry is removed, the count drops
to `n - 1`, and entries `0 .. n-2` are unchanged. -/
theorem C9_remove_unchecked (offs : List Nat) (i : Nat) (hne : offs ≠ [])
    (hn : offs.length < U64MOD) (hi : offs.length - 1 ≤ i) (log? : Option Bytes) :
    DSState.quick_remove_at ⟨log?, some (indexBytes offs)⟩ i
        = .ok ⟨log?, some (indexBytes offs.dropLast)⟩ ∧
    IndexFile.quick_remove_at (some (indexBytes offs)) i = .ok (indexBytes offs.dropLast) ∧
    IndexFile.length (some (indexBytes offs.dropLast)) = .ok (offs.length - 1) ∧
    (∀ j, j < offs.length - 1 → ∀ d : Nat, offs.dropLast.getD j d = offs.getD j d) := by
  have hpos : 0 < offs.length := List.length_pos.mpr hne
  have hrs : removeSwap offs i = offs.dropLast := by
    unfold removeSwap
    rw [if_neg (by omega)]
  have hq := quick_remove_indexBytes offs i hne hn
  rw [hrs] at hq
  refine ⟨DSState_quick_remove_unfold log? _ i hq, hq, ?_, ?_⟩
  · have hdl : offs.dropLast.length = offs.length - 1 := by simp
    rw [← hdl]
    exact length_indexBytes_ok (by omega)
  · intro j hj d
    rw [List.getD_eq_getElem _ d (by simp; omega), List.getElem_dropLast,
      ← List.getD_eq_getElem offs d (by omega)]

/-- Witness for C9: removing at the out-of-range position 7 of a
two-entry index succeeds and truncates the last entry. -/
theorem C9_remove_unchecked_witness :
    DSState.quick_remove_at (⟨none, some (indexBytes [1024, 1040])⟩ : DSState) 7
      = .ok ⟨none, some (indexBytes [1024])⟩ := by
  have h := C9_remove_unchecked [1024, 1040] 7 (by decide) (by norm_num [U64MOD]) (by norm_num) none
  exact h.1

/-- C10: the bounds assertion accepts negative indices: `get(-1)` on an
existing index file storing count `n` does not raise a bounds error but
reads bytes 0..8 (the count field) and returns `n` itself; the dataset
`get(-1)` consequently decodes at byte offset `n` of the log. -/
theorem C10_get_negative_one (f : Bytes) (n : Nat)
    (hn : IndexFile.length (some f) = .ok n) :
    IndexFile.get (some f) (-1) = .ok n ∧
    ∀ (α : Type) (log : Bytes) (ds : List (Bytes → α)),
      DSState.get ⟨some log, some f⟩ (some ds) (-1) = readRecord log ds n := by
  refine ⟨get_neg_one hn, fun α log ds => ?_⟩
  exact DSState_get_resolve (some log) f ds (-1) (get_neg_one hn)

/-- Witness for C10: a one-entry index; get(-1) returns the count 1, and
the dataset read decodes at byte offset 1 of the log. -/
theorem C10_get_negative_one_witness :
    IndexFile.get (some (indexBytes [1024])) (-1) = .ok 1 ∧
    DSState.get ⟨some RESERVED, some (indexBytes [1024])⟩
        (some [fun b => (b : Bytes)]) (-1)
      = readRecord RESERVED [fun b => (b : Bytes)] 1 := by
  have h := C10_get_negative_one (indexBytes [1024]) 1 (by decide)
  exact ⟨h.1, h.2 Bytes RESERVED [fun b => b]⟩

theorem resetLog_of_reset {log? : Option Bytes} {n : Nat} (h : log? = none ∨ n = 0) :
    resetLog log? n = RESERVED := by
  rw [resetLog, if_pos h]

theorem resetLog_of_keep {log? : Option Bytes} {f : Bytes} {n : Nat}
    (hf : log? = some f) (hz : n ≠ 0) : resetLog log? n = f := by
  rw [resetLog, if_neg (by simp [hf, hz]), hf]
  rfl

theorem append_no_serializers {α : Type _} (log? idx? : Option Bytes) (items : List α)
    (n : Nat) (hn : IndexFile.length idx? = .ok n) :
    DSState.append ⟨log?, idx?⟩ (none : Option (List (α → Bytes))) items
      = (⟨some (resetLog log? n), idx?⟩, some .missingCodec) := by
  cases log? with
  | none =>
    rw [resetLog_of_reset (Or.inl rfl)]
    rfl
  | some f =>
    by_cases hz : n = 0
    · subst hz
      rw [resetLog_of_reset (Or.inr rfl)]
      unfold DSState.append
      rw [hn]
      rfl
    · rw [resetLog_of_keep rfl hz]
      unfold DSState.append
      rw [hn]
      simp only [bind_ok_eq, decide_eq_false hz]
      rfl

theorem append_some_serializers {α : Type _} (log? idx? : Option Bytes)
    (ss : List (α → Bytes)) (items : List α) (n : Nat)
    (hn : IndexFile.length idx? = .ok n) :
    DSState.append ⟨log?, idx?⟩ (some ss) items
      = match (do
            let fields ← encodeRecord ss items
            packBlock fields : Except Err Bytes) with
        | .error e => (⟨some (resetLog log? n), idx?⟩, some e)
        | .ok block =>
          match IndexFile.append idx? (resetLog log? n).length with
          | .error e => (⟨some (resetLog log? n), idx?⟩, some e)
          | .ok idxf => (⟨some (resetLog log? n ++ block), some idxf⟩, none) := by
  cases log? with
  | none =>
    rw [resetLog_of_reset (Or.inl rfl)]
    rfl
  | some f =>
    by_cases hz : n = 0
    · subst hz
      rw [resetLog_of_reset (Or.inr rfl)]
      unfold DSState.append
      rw [hn]
      rfl
    · rw [resetLog_of_keep rfl hz]
      unfold DSState.append
      rw [hn]
      simp only [bind_ok_eq, decide_eq_false hz]
      rfl

/-- C5: on every successful `append`, if the record-log file was missing
or the index reported length 0, the resulting log is exactly a fresh
reserved header followed by the new record's block (in particular, a
non-empty on-disk log is truncated when the index reports zero entries);
otherwise the existing log's contents are kept intact and the block is
appended at its end. -/
theorem C5_append_reset_semantics {α : Type _} (log? idx? : Option Bytes)
    (ss : List (α → Bytes)) (items : List α) (n : Nat)
    (hn : IndexFile.length idx? = .ok n) (st' : DSState)
    (hap : DSState.append ⟨log?, idx?⟩ (some ss) items = (st', none)) :
    ∃ fields, encodeRecord ss items = .ok fields ∧
      ((log? = none ∨ n = 0) → st'.log = some (RESERVED ++ blockBytes fields)) ∧
      (∀ f, log? = some f → n ≠ 0 → st'.log = some (f ++ blockBytes fields)) := by
  rw [append_some_serializers log? idx? ss items n hn] at hap
  cases henc : encodeRecord ss items with
  | error e =>
    rw [henc, bind_error_eq] at hap
    injection hap with h1 h2
    exact Option.noConfusion h2
  | ok fields =>
    rw [henc, bind_ok_eq] at hap
    by_cases hpb : ∀ b ∈ fields, b.length < U64MOD
    · unfold packBlock at hap
      rw [if_pos hpb] at hap
      cases happ : IndexFile.append idx? (resetLog log? n).length with
      | error e =>
        rw [happ] at hap
        injection hap with h1 h2
        exact Option.noConfusion h2
      | ok idxf =>
        rw [happ] at hap
        injection hap with h1 h2
        refine ⟨fields, rfl, ?_, ?_⟩
        · intro hres
          rw [← h1, resetLog_of_reset hres]
        · intro f hf hz
          rw [← h1, resetLog_of_keep hf hz]
    · unfold packBlock at hap
      rw [if_neg hpb] at hap
      injection hap with h1 h2
      exact Option.noConfusion h2

set_option maxRecDepth 400000 in
/-- Witness for C5: appending one arity-1 record while the index stores
count 0 and a non-empty junk log exists on disk: the log is reset to the
reserved header plus the new block. -/
theorem C5_append_reset_semantics_witness :
    ∃ fields, encodeRecord [fun b => (b : Bytes)] [[1]] = .ok fields ∧
      ((some [9, 9, 9] = (none : Option Bytes) ∨ 0 = 0) →
        (⟨some (RESERVED ++ blockBytes [[1]]), some (indexBytes [1024])⟩ : DSState).log
          = some (RESERVED ++ blockBytes fields)) ∧
      (∀ f, some [9, 9, 9] = some f → 0 ≠ 0 →
        (⟨some (RESERVED ++ blockBytes [[1]]), some (indexBytes [1024])⟩ : DSState).log
          = some (f ++ blockBytes fields)) :=
  C5_append_reset_semantics (some [9, 9, 9]) (some (indexBytes []))
    [fun b => b] [[1]] 0 (by decide)
    ⟨some (RESERVED ++ blockBytes [[1]]), some (indexBytes [1024])⟩ (by decide)

/-- C8: `append` on a dataset without serializers fails with the
missing-codec error and leaves the index file untouched; its one partial
effect is the log reset: the resulting log is a bare reserved header
exactly when the log was missing or the index reported length 0, and the
previous log content otherwise. -/
theorem C8_append_missing_codec {α : Type _} (log? idx? : Option Bytes) (items : List α)
    (n : Nat) (hn : IndexFile.length idx? = .ok n) :
    DSState.append ⟨log?, idx?⟩ (none : Option (List (α → Bytes))) items
      = (⟨some (resetLog log? n), idx?⟩, some .missingCodec) ∧
    ((log? = none ∨ n = 0) → resetLog log? n = RESERVED) ∧
    (∀ f, log? = some f → n ≠ 0 → resetLog log? n = f) :=
  ⟨append_no_serializers log? idx? items n hn,
   fun h => resetLog_of_reset h,
   fun _ hf hz => resetLog_of_keep hf hz⟩

set_option maxRecDepth 400000 in
/-- Witness for C8: append without serializers over a zero-count index
and an existing non-empty log: MissingCodecError, index unchanged, log
reset to the bare header. -/
theorem C8_append_missing_codec_witness :
    DSState.append (⟨some [7, 7], some (indexBytes [])⟩ : DSState)
        (none : Option (List (Bytes → Bytes))) [[1]]
      = (⟨some (resetLog (some [7, 7]) 0), some (indexBytes [])⟩, some .missingCodec) ∧
    ((some [7, 7] = (none : Option Bytes) ∨ 0 = 0) → resetLog (some [7, 7]) 0 = RESERVED) ∧
    (∀ f, some [7, 7] = some f → 0 ≠ 0 → resetLog (some [7, 7]) 0 = f) :=
  C8_append_missing_codec (some [7, 7]) (some (indexBytes [])) [[1]] 0 (by decide)

theorem getD_mem {β : Type _} (l : List β) (j : Nat) (d : β) (hj : j < l.length) :
    l.getD j d ∈ l := by
  rw [List.getD_eq_getElem l d hj]
  exact List.getElem_mem hj

theorem encodeRecord_ok_length {α : Type _} {ss : List (α → Bytes)} {items : List α}
    {fields : List Bytes} (h : encodeRecord ss items = .ok fields) :
    fields.length = ss.length := by
  unfold encodeRecord at h
  by_cases hle : ss.length ≤ items.length
  · rw [if_pos hle] at h
    injection h with h
    rw [← h, List.length_zipWith]
    omega
  · rw [if_neg hle] at h
    exact Except.noConfusion h

theorem validBlockAt_append {k : Nat} {log : Bytes} {o : Nat} (ext : Bytes)
    (h : validBlockAt k log o) : validBlockAt k (log ++ ext) o := by
  obtain ⟨fields, hk, hb, hle, heq⟩ := h
  refine ⟨fields, hk, hb, by rw [List.length_append]; omega, ?_⟩
  rw [List.drop_append_of_le_length (by omega),
    List.take_append_of_le_length (by rw [List.length_drop]; omega), heq]

theorem validBlockAt_end {k : Nat} (log : Bytes) (fields : List Bytes)
    (hk : fields.length = k) (hb : ∀ b ∈ fields, b.length < U64MOD) :
    validBlockAt k (log ++ blockBytes fields) log.length := by
  refine ⟨fields, hk, hb, by rw [List.length_append], ?_⟩
  rw [List.drop_left, List.take_length]

theorem canonLog_split (fieldss : List (List Bytes)) (j : Nat) (hj : j < fieldss.length) :
    canonLog fieldss
      = (RESERVED ++ ((fieldss.map blockBytes).take j).flatten)
        ++ (blockBytes (fieldss.getD j [])
            ++ ((fieldss.map blockBytes).drop (j + 1)).flatten) ∧
    (RESERVED ++ ((fieldss.map blockBytes).take j).flatten).length
      = (canonOffs fieldss).getD j 0 := by
  have hj2 : j < (fieldss.map blockBytes).length := by simpa using hj
  constructor
  · rw [canonLog, flatten_decomp _ j hj2, getD_map_blockBytes fieldss j hj,
      List.append_assoc]
  · rw [canonOffs, blockStarts_getD _ _ j hj2, List.length_append, List.length_flatten,
      List.map_take]

theorem validBlockAt_canon (fieldss : List (List Bytes)) (k : Nat) (j : Nat)
    (hj : j < fieldss.length) (hk : (fieldss.getD j []).length = k)
    (hb : ∀ b ∈ fieldss.getD j [], b.length < U64MOD) :
    validBlockAt k (canonLog fieldss) ((canonOffs fieldss).getD j 0) := by
  obtain ⟨hsplit, hpre⟩ := canonLog_split fieldss j hj
  refine ⟨fieldss.getD j [], hk, hb, ?_, ?_⟩
  · rw [hsplit, ← hpre]
    simp only [List.length_append]
    omega
  · rw [hsplit, ← hpre, List.drop_left, List.take_append_of_le_length (le_refl _),
      List.take_length]

theorem canonOffs_lt_length (fieldss : List (List Bytes)) (k : Nat) (hk1 : 1 ≤ k)
    (harr : ∀ f ∈ fieldss, f.length = k) (j : Nat) (hj : j < fieldss.length) :
    (canonOffs fieldss).getD j 0 < (canonLog fieldss).length := by
  have hj2 : j < (fieldss.map blockBytes).length := by simpa using hj
  have h1 := blockStarts_getD_add_le (fieldss.map blockBytes) RESERVED.length j hj2
  have hblock : 0 < ((fieldss.map blockBytes).getD j []).length := by
    rw [getD_map_blockBytes fieldss j hj, length_blockBytes,
      harr _ (getD_mem fieldss j [] hj)]
    omega
  have hlen := length_canonLog fieldss
  rw [canonOffs]
  omega

theorem IndexInv_canon (fieldss : List (List Bytes)) (k : Nat) (hk1 : 1 ≤ k)
    (harr : ∀ f ∈ fieldss, f.length = k)
    (hfield : ∀ r ∈ fieldss, ∀ b ∈ r, b.length < U64MOD)
    (hcnt : fieldss.length < U64MOD) (hob : ∀ o ∈ canonOffs fieldss, o < U64MOD) :
    IndexInv k (canonLog fieldss) (indexBytes (canonOffs fieldss)) := by
  refine ⟨canonOffs fieldss, by rw [canonOffs_length]; exact hcnt, hob, rfl, ?_⟩
  intro o ho
  obtain ⟨j, hj, rfl⟩ := List.mem_iff_getElem.mp ho
  rw [canonOffs_length] at hj
  rw [← List.getD_eq_getElem (canonOffs fieldss) 0 (by rw [canonOffs_length]; exact hj)]
  constructor
  · exact canonOffs_lt_length fieldss k hk1 harr j hj
  · exact validBlockAt_canon fieldss k j hj (harr _ (getD_mem fieldss j [] hj))
      (hfield _ (getD_mem fieldss j [] hj))

theorem IndexInv_make {α : Type _} {records : List (List α)} {ss : List (α → Bytes)}
    {log idxf : Bytes} (hk : 1 ≤ ss.length)
    (h : make_dataset records ss = .ok (log, idxf)) :
    IndexInv ss.length log idxf := by
  obtain ⟨fieldss, hf2, hbnd, hlog, hidx, hcnt, hob⟩ := make_dataset_ok h
  have hflen : fieldss.length = records.length := hf2.length_eq.symm
  have harr : ∀ f ∈ fieldss, f.length = ss.length := by
    intro f hf
    obtain ⟨j, hj, rfl⟩ := List.mem_iff_getElem.mp hf
    have henc := forall₂_getD hf2 j (by omega) [] []
    rw [List.getD_eq_getElem fieldss [] hj] at henc
    exact encodeRecord_ok_length henc
  rw [hlog, hidx]
  exact IndexInv_canon fieldss ss.length hk harr hbnd hcnt hob

theorem append_indexBytes_inv (offs : List Nat) (v : Nat) (hcount : offs.length < U64MOD)
    {out : Bytes} (h : IndexFile.append (some (indexBytes offs)) v = .ok out) :
    out = indexBytes (offs ++ [v]) ∧ offs.length + 1 < U64MOD ∧ v < U64MOD := by
  unfold IndexFile.append at h
  rw [length_indexBytes_ok hcount, bind_ok_eq] at h
  by_cases h1 : offs.length + 1 < U64MOD
  · rw [if_neg (by omega : ¬ ¬ offs.length + 1 < U64MOD)] at h
    by_cases h2 : v < U64MOD
    · rw [if_neg (by omega : ¬ ¬ v < U64MOD)] at h
      by_cases h3 : offs.length = 0
      · rw [if_pos h3] at h
        injection h with h
        have hoe : offs = [] := List.length_eq_zero.mp h3
        subst hoe
        refine ⟨?_, h1, h2⟩
        rw [← h]
        simp [indexBytes]
      · rw [if_neg h3] at h
        injection h with h
        refine ⟨?_, h1, h2⟩
        rw [← h, indexBytes, writeAt_header _ (by rw [length_u64le, length_u64le]),
          indexBytes]
        simp [List.append_assoc]
    · rw [if_pos (by omega : ¬ v < U64MOD)] at h
      exact Except.noConfusion h
  · rw [if_pos (by omega : ¬ offs.length + 1 < U64MOD)] at h
    exact Except.noConfusion h

set_option maxRecDepth 10000 in
theorem IndexInv_append {α : Type _} (k : Nat) (hk1 : 1 ≤ k) (log idxf : Bytes)
    (hinv : IndexInv k log idxf) (ss : List (α → Bytes)) (hss : ss.length = k)
    (items : List α) (st' : DSState)
    (hap : DSState.append ⟨some log, some idxf⟩ (some ss) items = (st', none)) :
    ∃ log' idxf', st' = ⟨some log', some idxf'⟩ ∧ IndexInv k log' idxf' := by
  obtain ⟨offs, hcnt, hob, hidx, hval⟩ := hinv
  subst hidx
  have hn := length_indexBytes_ok hcnt
  rw [append_some_serializers _ _ ss items offs.length hn] at hap
  by_cases hz : offs.length = 0
  · have hoe : offs = [] := List.length_eq_zero.mp hz
    subst hoe
    have hres : resetLog (some log) ([] : List Nat).length = RESERVED :=
      resetLog_of_reset (Or.inr rfl)
    rw [hres] at hap
    cases henc : encodeRecord ss items with
    | error e =>
      rw [henc, bind_error_eq] at hap
      injection hap with h1 h2
      exact Option.noConfusion h2
    | ok fields =>
      rw [henc, bind_ok_eq] at hap
      have hflen : fields.length = k := by rw [encodeRecord_ok_length henc, hss]
      by_cases hpb : ∀ b ∈ fields, b.length < U64MOD
      · unfold packBlock at hap
        rw [if_pos hpb] at hap
        cases happ : IndexFile.append (some (indexBytes [])) RESERVED.length with
        | error e =>
          rw [happ] at hap
          injection hap with h1 h2
          exact Option.noConfusion h2
        | ok idxf2 =>
          rw [happ] at hap
          injection hap with h1 h2
          obtain ⟨hout, hc1, hv1⟩ := append_indexBytes_inv [] _ (by norm_num [U64MOD]) happ
          refine ⟨RESERVED ++ blockBytes fields, idxf2, h1.symm, ?_⟩
          rw [hout]
          refine ⟨[] ++ [RESERVED.length], by norm_num [U64MOD], ?_, rfl, ?_⟩
          · intro o ho
            simp only [List.nil_append, List.mem_singleton] at ho
            subst ho
            exact hv1
          · intro o ho
            simp only [List.nil_append, List.mem_singleton] at ho
            subst ho
            constructor
            · rw [List.length_append, length_blockBytes, hflen]
              omega
            · exact validBlockAt_end RESERVED fields hflen hpb
      · unfold packBlock at hap
        rw [if_neg hpb] at hap
        injection hap with h1 h2
        exact Option.noConfusion h2
  · have hres : resetLog (some log) offs.length = log := resetLog_of_keep rfl hz
    rw [hres] at hap
    cases henc : encodeRecord ss items with
    | error e =>
      rw [henc, bind_error_eq] at hap
      injection hap with h1 h2
      exact Option.noConfusion h2
    | ok fields =>
      rw [henc, bind_ok_eq] at hap
      have hflen : fields.length = k := by rw [encodeRecord_ok_length henc, hss]
      by_cases hpb : ∀ b ∈ fields, b.length < U64MOD
      · unfold packBlock at hap
        rw [if_pos hpb] at hap
        cases happ : IndexFile.append (some (indexBytes offs)) log.length with
        | error e =>
          rw [happ] at hap
          injection hap with h1 h2
          exact Option.noConfusion h2
        | ok idxf2 =>
          rw [happ] at hap
          injection hap with h1 h2
          obtain ⟨hout, hc1, hv1⟩ := append_indexBytes_inv offs _ hcnt happ
          refine ⟨log ++ blockBytes fields, idxf2, h1.symm, ?_⟩
          rw [hout]
          refine ⟨offs ++ [log.length], by rw [List.length_append]; simpa using hc1, ?_,
            rfl, ?_⟩
          · intro o ho
            rcases List.mem_append.mp ho with hmem | hmem
            · exact hob o hmem
            · rw [List.mem_singleton.mp hmem]
              exact hv1
          · intro o ho
            rcases List.mem_append.mp ho with hmem | hmem
            · obtain ⟨hlt, hvb⟩ := hval o hmem
              refine ⟨?_, validBlockAt_append _ hvb⟩
              rw [List.length_append]
              omega
            · rw [List.mem_singleton.mp hmem]
              constructor
              · rw [List.length_append, length_blockBytes, hflen]
                omega
              · exact validBlockAt_end log fields hflen hpb
      · unfold packBlock at hap
        rw [if_neg hpb] at hap
        injection hap with h1 h2
        exact Option.noConfusion h2

theorem IndexInv_quick_remove (k : Nat) (log idxf : Bytes) (hinv : IndexInv k log idxf)
    (i : Nat) {f' : Bytes} (hq : IndexFile.quick_remove_at (some idxf) i = .ok f') :
    IndexInv k log f' := by
  obtain ⟨offs, hcnt, hob, hidx, hval⟩ := hinv
  subst hidx
  by_cases hne : offs = []
  · subst hne
    rw [quick_remove_unfold (length_indexBytes_ok hcnt) i,
      if_neg (by rw [length_indexBytes]; omega :
        ¬ (indexBytes ([] : List Nat)).length < 8),
      if_pos (show ([] : List Nat).length = 0 from rfl)] at hq
    exact Except.noConfusion hq
  · have hqq := quick_remove_indexBytes offs i hne hcnt
    rw [hqq] at hq
    injection hq with hq
    subst hq
    refine ⟨removeSwap offs i, ?_, ?_, rfl, ?_⟩
    · rw [removeSwap_length]
      omega
    · intro o ho
      exact hob o (removeSwap_subset offs i o ho)
    · intro o ho
      exact hval o (removeSwap_subset offs i o ho)

/-- C6 (amended to arity `k ≥ 1`): every successful operation — a
`make_dataset` build, an `append` from an invariant-satisfying pair, a
`quick_remove_at`, and the pair produced by `defrag` — yields an
on-disk pair satisfying `IndexInv`: the count stored at the head of the
index equals the number of entries (the logical length), and every
stored entry is strictly less than the record-log size and is the byte
offset where a well-formed arity-`k` block (its `k` u64 length-prefix
words and payloads) begins.  The arity-0 case of the original claim is
false: see the counterexample. -/
theorem C6_invariant_preserved (k : Nat) (hk : 1 ≤ k) :
    (∀ (α : Type) (records : List (List α)) (ss : List (α → Bytes)) (log idxf : Bytes),
      ss.length = k → make_dataset records ss = .ok (log, idxf) → IndexInv k log idxf) ∧
    (∀ (α : Type) (log idxf : Bytes) (ss : List (α → Bytes)) (items : List α)
       (st' : DSState),
      ss.length = k → IndexInv k log idxf →
      DSState.append ⟨some log, some idxf⟩ (some ss) items = (st', none) →
      ∃ log' idxf', st' = ⟨some log', some idxf'⟩ ∧ IndexInv k log' idxf') ∧
    (∀ (log idxf f' : Bytes) (i : Nat), IndexInv k log idxf →
      IndexFile.quick_remove_at (some idxf) i = .ok f' → IndexInv k log f') ∧
    (∀ (st : DSState) (log' idxf' : Bytes),
      DSState.defrag st k = .ok (log', idxf') → IndexInv k log' idxf') := by
  refine ⟨?_, ?_, ?_, ?_⟩
  · intro α records ss log idxf hss hok
    have h := IndexInv_make (by omega) hok
    rwa [hss] at h
  · intro α log idxf ss items st' hss hinv hap
    exact IndexInv_append k hk log idxf hinv ss hss items st' hap
  · intro log idxf f' i hinv hq
    exact IndexInv_quick_remove k log idxf hinv i hq
  · intro st log' idxf' hdf
    unfold DSState.defrag at hdf
    cases hra : DSState.readAll st k with
    | error e =>
      rw [hra, bind_error_eq] at hdf
      exact Except.noConfusion hdf
    | ok records =>
      rw [hra, bind_ok_eq] at hdf
      have h := @IndexInv_make Bytes records (List.replicate k (fun b => b)) log' idxf'
        (by simpa using hk) hdf
      rwa [List.length_replicate] at h

set_option maxRecDepth 400000 in
/-- Counterexample to C6 as stated: with arity 0 (an empty serializer
list), building from one empty record succeeds and stores the offset
1024, which equals — is not strictly less than — the record-log size, so
the stated invariant fails on a successful build. -/
theorem C6_invariant_counterexample :
    make_dataset [([] : List Bytes)] ([] : List (Bytes → Bytes))
      = .ok (RESERVED, indexBytes [1024]) ∧
    IndexFile.get (some (indexBytes [1024])) 0 = .ok 1024 ∧
    ¬ 1024 < RESERVED.length :=
  ⟨by decide, by decide, by decide⟩

set_option maxRecDepth 400000 in
/-- Witness for C6: the invariant holds for the pair built from one
one-field record at arity 1. -/
theorem C6_invariant_preserved_witness :
    IndexInv 1 (RESERVED ++ blockBytes [[5]]) (indexBytes [1024]) :=
  (C6_invariant_preserved 1 (by norm_num)).1 Bytes [[[5]]] [fun b => b]
    (RESERVED ++ blockBytes [[5]]) (indexBytes [1024]) rfl (by decide)

theorem map_range_getD {β : Type _} (l : List β) (d : β) :
    (List.range l.length).map (fun j => l.getD j d) = l := by
  induction l with
  | nil => rfl
  | cons x xs ih =>
    rw [List.length_cons, List.range_succ_eq_map, List.map_cons, List.map_map]
    have hcomp : ((fun j => (x :: xs).getD j d) ∘ Nat.succ) = fun j => xs.getD j d := by
      funext j
      simp [Function.comp]
    rw [hcomp, ih]
    simp

theorem getD_map_fun {β γ : Type _} (l : List β) (f : β → γ) (i : Nat) (hi : i < l.length)
    (d : β) (dg : γ) : (l.map f).getD i dg = f (l.getD i d) := by
  rw [List.getD_eq_getElem _ dg (by simpa using hi), List.getElem_map,
    List.getD_eq_getElem l d hi]

theorem readSeq_ok {α : Type _} (st : DSState) (ds : List (Bytes → α)) (g : Nat → List α) :
    ∀ (fuel i0 : Nat),
    (∀ j, j < fuel → st.get (some ds) ((i0 + j : Nat) : Int) = .ok (g (i0 + j))) →
    readSeq st ds i0 fuel = .ok ((List.range fuel).map (fun j => g (i0 + j))) := by
  intro fuel
  induction fuel with
  | zero =>
    intro i0 _
    rfl
  | succ m ih =>
    intro i0 h
    have h0 : st.get (some ds) ((i0 : Nat) : Int) = .ok (g i0) := by
      have h0a := h 0 (by omega)
      rwa [Nat.add_zero] at h0a
    have hrest := ih (i0 + 1) (fun j hj => by
      have heq : i0 + 1 + j = i0 + (j + 1) := by omega
      rw [heq]
      exact h (j + 1) (by omega))
    simp only [readSeq, h0, bind_ok_eq, hrest]
    rw [List.range_succ_eq_map, List.map_cons, List.map_map]
    have hmap : (List.range m).map (fun j => g (i0 + 1 + j))
        = (List.range m).map ((fun j => g (i0 + j)) ∘ Nat.succ) := by
      apply List.map_congr_left
      intro a _
      simp only [Function.comp]
      congr 1
      omega
    rw [← hmap]
    norm_num

theorem sum_range_getD {β : Type _} (L : List β) (f : β → Nat) (d : β) :
    ∑ j ∈ Finset.range L.length, f (L.getD j d) = (L.map f).sum := by
  induction L with
  | nil => simp
  | cons x xs ih =>
    rw [List.length_cons, Finset.sum_range_succ']
    simp only [List.getD_cons_succ, List.getD_cons_zero, List.map_cons, List.sum_cons]
    rw [ih]
    ring

theorem sum_over_nodup_le {β : Type _} (L : List β) (f : β → Nat) (live : List Nat)
    (hnd : live.Nodup) (hlt : ∀ j ∈ live, j < L.length) (d : β) :
    (live.map (fun j => f (L.getD j d))).sum ≤ (L.map f).sum ∧
    ((∃ j0, j0 < L.length ∧ j0 ∉ live ∧ 0 < f (L.getD j0 d)) →
      (live.map (fun j => f (L.getD j d))).sum < (L.map f).sum) := by
  have hsum1 : (live.map (fun j => f (L.getD j d))).sum
      = ∑ j ∈ live.toFinset, f (L.getD j d) :=
    (List.sum_toFinset _ hnd).symm
  have hsub : live.toFinset ⊆ Finset.range L.length := by
    intro j hj
    rw [Finset.mem_range]
    exact hlt j (List.mem_toFinset.mp hj)
  have hsum2 := sum_range_getD L f d
  constructor
  · rw [hsum1, ← hsum2]
    exact Finset.sum_le_sum_of_subset hsub
  · intro horphan
    obtain ⟨j0, hj0, hj0n, hj0pos⟩ := horphan
    rw [hsum1, ← hsum2]
    refine Finset.sum_lt_sum_of_subset hsub (Finset.mem_range.mpr hj0)
      (fun hc => hj0n (List.mem_toFinset.mp hc)) hj0pos ?_
    intro j _ _
    exact Nat.zero_le _

theorem canonOffs_le_length (fieldss : List (List Bytes)) (j : Nat)
    (hj : j < fieldss.length) :
    (canonOffs fieldss).getD j 0 ≤ (canonLog fieldss).length := by
  have h1 := blockStarts_getD_add_le (fieldss.map blockBytes) RESERVED.length j
    (by simpa using hj)
  have hlen := length_canonLog fieldss
  rw [canonOffs]
  omega

theorem canonOffs_bounded (fieldss : List (List Bytes))
    (hsize : (canonLog fieldss).length < U64MOD) :
    ∀ o ∈ canonOffs fieldss, o < U64MOD := by
  intro o ho
  obtain ⟨j, hj, rfl⟩ := List.mem_iff_getElem.mp ho
  rw [canonOffs_length] at hj
  rw [← List.getD_eq_getElem (canonOffs fieldss) 0 (by rw [canonOffs_length]; exact hj)]
  have := canonOffs_le_length fieldss j hj
  omega

theorem make_dataset_id (k : Nat) (recs : List (List Bytes))
    (hk : ∀ r ∈ recs, r.length = k) (hb : ∀ r ∈ recs, ∀ b ∈ r, b.length < U64MOD)
    (hcnt : recs.length < U64MOD) (hsize : (canonLog recs).length < U64MOD) :
    make_dataset recs (List.replicate k (fun b => b))
      = .ok (canonLog recs, indexBytes (canonOffs recs)) := by
  unfold make_dataset
  rw [buildLoop_id k recs RESERVED [] hk hb, bind_ok_eq]
  show (do
    let idxf ← IndexFile.write ([] ++ blockStarts RESERVED.length (recs.map blockBytes))
    Except.ok (RESERVED ++ (recs.map blockBytes).flatten, idxf) : Except Err (Bytes × Bytes))
      = _
  rw [List.nil_append]
  have hw : IndexFile.write (blockStarts RESERVED.length (recs.map blockBytes))
      = .ok (indexBytes (canonOffs recs)) := by
    have hc1 : (blockStarts RESERVED.length (recs.map blockBytes)).length < U64MOD := by
      rw [blockStarts_length, List.length_map]
      exact hcnt
    have hc2 : ∀ o ∈ blockStarts RESERVED.length (recs.map blockBytes), o < U64MOD :=
      canonOffs_bounded recs hsize
    unfold IndexFile.write
    rw [if_pos ⟨hc1, hc2⟩]
    rfl
  rw [hw, bind_ok_eq]
  rfl

theorem fsWrite_same (fs : String → Option Bytes) (p : String) (c : Bytes) :
    fsWrite fs p c p = some c := by
  simp [fsWrite]

theorem fsWrite_other (fs : String → Option Bytes) (p : String) (c : Bytes) (q : String)
    (h : q ≠ p) : fsWrite fs p c q = fs q := by
  simp [fsWrite, h]

theorem map_range_comp_getD {β γ : Type _} (l : List β) (g : β → γ) (d : β) :
    (List.range l.length).map (fun j => g (l.getD j d)) = l.map g := by
  conv_rhs => rw [← map_range_getD l d]
  rw [List.map_map]
  rfl

theorem srcOffs_length {k : Nat} (M : SourceModel k) : M.srcOffs.length = M.live.length := by
  rw [SourceModel.srcOffs, List.length_map]

theorem srcIdx_length_ok {k : Nat} (M : SourceModel k) :
    IndexFile.length (some M.srcIdx) = .ok M.live.length := by
  rw [SourceModel.srcIdx, ← srcOffs_length M]
  exact length_indexBytes_ok (by rw [srcOffs_length M]; exact M.hcount)

theorem srcOffs_bounded {k : Nat} (M : SourceModel k)
    (hsize : (canonLog M.fieldss).length < U64MOD) :
    ∀ o ∈ M.srcOffs, o < U64MOD := by
  intro o ho
  rw [SourceModel.srcOffs] at ho
  obtain ⟨j, hjl, rfl⟩ := List.mem_map.mp ho
  have h := canonOffs_le_length M.fieldss j (M.hlive j hjl)
  omega

theorem get_source {α : Type _} (k : Nat) (M : SourceModel k)
    (hsize : (canonLog M.fieldss).length < U64MOD)
    (ds : List (Bytes → α)) (hds : ds.length = k) (i : Nat) (hi : i < M.live.length) :
    DSState.get ⟨some M.srcLog, some M.srcIdx⟩ (some ds) ((i : Nat) : Int)
      = .ok (List.zipWith (fun d b => d b) ds (M.fieldss.getD (M.live.getD i 0) [])) := by
  have hj : M.live.getD i 0 < M.fieldss.length := M.hlive _ (getD_mem M.live i 0 hi)
  show DSState.get ⟨some (canonLog M.fieldss), some (indexBytes M.srcOffs)⟩
    (some ds) ((i : Nat) : Int) = _
  apply get_with_offs M.fieldss M.srcOffs ds i (M.live.getD i 0)
    (by rw [srcOffs_length M]; exact hi) hj
  · rw [SourceModel.srcOffs]
    exact getD_map_fun M.live (fun j => (canonOffs M.fieldss).getD j 0) i hi 0 0
  · rw [srcOffs_length M]
    exact M.hcount
  · exact srcOffs_bounded M hsize
  · rw [M.harity _ (getD_mem M.fieldss _ [] hj), hds]
  · exact M.hfield _ (getD_mem M.fieldss _ [] hj)

theorem readAll_source (k : Nat) (M : SourceModel k)
    (hsize : (canonLog M.fieldss).length < U64MOD) :
    DSState.readAll ⟨some M.srcLog, some M.srcIdx⟩ k
      = .ok (M.live.map (fun j => M.fieldss.getD j [])) := by
  unfold DSState.readAll
  rw [srcIdx_length_ok M, bind_ok_eq]
  have hseq := readSeq_ok ⟨some M.srcLog, some M.srcIdx⟩ (List.replicate k (fun b => b))
    (fun i => M.fieldss.getD (M.live.getD i 0) []) M.live.length 0 (fun j hj => by
      rw [Nat.zero_add]
      have hjlt : M.live.getD j 0 < M.fieldss.length := M.hlive _ (getD_mem M.live j 0 hj)
      rw [get_source k M hsize (List.replicate k (fun b => b)) (by simp) j hj,
        zipWith_replicate_id _ k (M.harity _ (getD_mem M.fieldss _ [] hjlt))])
  rw [hseq]
  congr 1
  have hz : (fun j => M.fieldss.getD (M.live.getD (0 + j) 0) [])
      = fun j => M.fieldss.getD (M.live.getD j 0) [] := by
    funext j
    rw [Nat.zero_add]
  rw [hz]
  exact map_range_comp_getD M.live (fun j => M.fieldss.getD j []) 0

/-- C4 (amended: the derived index path — `splitext(out)[0] + ".idx"`,
where `make_dataset` actually writes the new index — must also be
distinct from the two source paths and from the output path itself; as
stated, with only the output path distinct from the source paths,
`defrag` can silently overwrite the source index, or write its index
over its own freshly written log, see the two scenarios of the
counterexample).  For a source dataset with `n` live records and paths
satisfying those distinctness conditions, `defrag(out)` succeeds and
produces a new (log, index) pair at `out` and `stem(out) ++ ".idx"`;
the source files are unchanged; both pairs report length `n`; reading
any position of the new pair with the source's decoders returns exactly
what the source returned; and the new log's byte size is at most the
source log's, strictly smaller whenever the source log contained
orphaned bytes (a block no index entry points to, of nonzero size). -/
theorem C4_defrag_compaction {α : Type _} (k : Nat) (M : SourceModel k)
    (hsize : (canonLog M.fieldss).length < U64MOD)
    (fs : String → Option Bytes) (src idxp out : String)
    (hsrc : fs src = some M.srcLog) (hidx : fs idxp = some M.srcIdx)
    (h1 : out ≠ src) (h2 : out ≠ idxp)
    (h3 : defaultIdxPath out ≠ src) (h4 : defaultIdxPath out ≠ idxp)
    (h5 : out ≠ defaultIdxPath out)
    (ds : List (Bytes → α)) (hds : ds.length = k) :
    ∃ fs' newLog newIdx,
      defrag_fs fs src idxp k out = .ok (fs', out, defaultIdxPath out) ∧
      fs' src = fs src ∧
      fs' idxp = fs idxp ∧
      fs' out = some newLog ∧
      fs' (defaultIdxPath out) = some newIdx ∧
      IndexFile.length (some M.srcIdx) = .ok M.live.length ∧
      IndexFile.length (some newIdx) = .ok M.live.length ∧
      (∀ i, i < M.live.length →
        DSState.get ⟨some newLog, some newIdx⟩ (some ds) ((i : Nat) : Int)
          = DSState.get ⟨some M.srcLog, some M.srcIdx⟩ (some ds) ((i : Nat) : Int)) ∧
      newLog.length ≤ M.srcLog.length ∧
      ((∃ j0, j0 < M.fieldss.length ∧ j0 ∉ M.live ∧
          0 < (blockBytes (M.fieldss.getD j0 [])).length) →
        newLog.length < M.srcLog.length) := by
  have hrec_arity : ∀ r ∈ M.live.map (fun j => M.fieldss.getD j []), r.length = k := by
    intro r hr
    obtain ⟨j, hjl, rfl⟩ := List.mem_map.mp hr
    exact M.harity _ (getD_mem M.fieldss _ [] (M.hlive j hjl))
  have hrec_b : ∀ r ∈ M.live.map (fun j => M.fieldss.getD j []), ∀ b ∈ r,
      b.length < U64MOD := by
    intro r hr
    obtain ⟨j, hjl, rfl⟩ := List.mem_map.mp hr
    exact M.hfield _ (getD_mem M.fieldss _ [] (M.hlive j hjl))
  have hrec_cnt : (M.live.map (fun j => M.fieldss.getD j [])).length < U64MOD := by
    rw [List.length_map]
    exact M.hcount
  have hsum := sum_over_nodup_le M.fieldss (fun r => (blockBytes r).length) M.live
    M.hnodup M.hlive []
  have hmapeq : (((M.live.map (fun j => M.fieldss.getD j [])).map blockBytes).map
        List.length).sum
      = (M.live.map (fun j => (blockBytes (M.fieldss.getD j [])).length)).sum := by
    rw [List.map_map, List.map_map]
    rfl
  have hmapeq2 : ((M.fieldss.map blockBytes).map List.length).sum
      = (M.fieldss.map (fun r => (blockBytes r).length)).sum := by
    rw [List.map_map]
    rfl
  have hnew_le : (canonLog (M.live.map (fun j => M.fieldss.getD j []))).length
      ≤ (canonLog M.fieldss).length := by
    rw [length_canonLog, length_canonLog, hmapeq, hmapeq2]
    have := hsum.1
    omega
  have hnew_lt : (∃ j0, j0 < M.fieldss.length ∧ j0 ∉ M.live ∧
      0 < (blockBytes (M.fieldss.getD j0 [])).length) →
      (canonLog (M.live.map (fun j => M.fieldss.getD j []))).length
        < (canonLog M.fieldss).length := by
    intro horphan
    rw [length_canonLog, length_canonLog, hmapeq, hmapeq2]
    have := hsum.2 horphan
    omega
  have hmk := make_dataset_id k (M.live.map (fun j => M.fieldss.getD j []))
    hrec_arity hrec_b hrec_cnt (lt_of_le_of_lt hnew_le hsize)
  have hra := readAll_source k M hsize
  have hnewcnt : (canonOffs (M.live.map (fun j => M.fieldss.getD j []))).length
      = M.live.length := by
    rw [canonOffs_length, List.length_map]
  have hdf : defrag_fs fs src idxp k out
      = .ok (fsWrite (fsWrite fs out (canonLog (M.live.map (fun j => M.fieldss.getD j []))))
          (defaultIdxPath out)
          (indexBytes (canonOffs (M.live.map (fun j => M.fieldss.getD j [])))),
        out, defaultIdxPath out) := by
    unfold defrag_fs
    rw [hsrc, hidx, hra, bind_ok_eq]
    unfold make_dataset_fs
    rw [hmk]
    rfl
  refine ⟨_, canonLog (M.live.map (fun j => M.fieldss.getD j [])),
    indexBytes (canonOffs (M.live.map (fun j => M.fieldss.getD j []))),
    hdf, ?_, ?_, ?_, ?_, srcIdx_length_ok M, ?_, ?_, ?_, ?_⟩
  · rw [fsWrite_other _ _ _ _ (Ne.symm h3), fsWrite_other _ _ _ _ (Ne.symm h1)]
  · rw [fsWrite_other _ _ _ _ (Ne.symm h4), fsWrite_other _ _ _ _ (Ne.symm h2)]
  · rw [fsWrite_other _ _ _ _ h5, fsWrite_same]
  · rw [fsWrite_same]
  · rw [← hnewcnt]
    exact length_indexBytes_ok (by rw [hnewcnt]; exact M.hcount)
  · intro i hi
    have hjlt : M.live.getD i 0 < M.fieldss.length := M.hlive _ (getD_mem M.live i 0 hi)
    have hnewget := get_with_offs (M.live.map (fun j => M.fieldss.getD j []))
      (canonOffs (M.live.map (fun j => M.fieldss.getD j []))) ds i i
      (by rw [hnewcnt]; exact hi)
      (by rw [List.length_map]; exact hi) rfl
      (by rw [hnewcnt]; exact M.hcount)
      (canonOffs_bounded _ (lt_of_le_of_lt hnew_le hsize))
      (by
        rw [getD_map_fun M.live (fun j => M.fieldss.getD j []) i hi 0 []]
        rw [M.harity _ (getD_mem M.fieldss _ [] hjlt), hds])
      (by
        rw [getD_map_fun M.live (fun j => M.fieldss.getD j []) i hi 0 []]
        exact M.hfield _ (getD_mem M.fieldss _ [] hjlt))
    rw [hnewget, get_source k M hsize ds hds i hi,
      getD_map_fun M.live (fun j => M.fieldss.getD j []) i hi 0 []]
  · exact hnew_le
  · exact hnew_lt

set_option maxRecDepth 400000 in
/-- Counterexample to C4 as stated, in two scenarios built on the same
source pair (`data.rec`, `data.idx`, holding one live and one orphaned
record).  First, with output `data.new` — distinct from both source
paths — `defrag` derives its index path as
`splitext("data.new")[0] + ".idx" = "data.idx"` and overwrites the
source index file (its content changes from `indexBytes [1033]` to
`indexBytes [1024]`), so the source pair is not unchanged.  Second, with
output `fresh.idx` — also distinct from both source paths — the derived
index path equals the output path itself, so the new index is written
over the just-written log: the produced "pair" holds the index bytes at
both paths and reading position 0 of it raises a struct error instead of
returning the record, so no dataset with the source's records is
produced. -/
theorem C4_defrag_counterexample :
    ("data.new" ≠ "data.rec" ∧ "data.new" ≠ "data.idx" ∧
     cFs "data.idx" = some (indexBytes [1033]) ∧
     (defrag_fs cFs "data.rec" "data.idx" 1 "data.new").toOption.map
         (fun r => (r.1 "data.idx", r.2.1, r.2.2))
       = some (some (indexBytes [1024]), "data.new", "data.idx") ∧
     indexBytes [1024] ≠ indexBytes [1033]) ∧
    ("fresh.idx" ≠ "data.rec" ∧ "fresh.idx" ≠ "data.idx" ∧
     (defrag_fs cFs "data.rec" "data.idx" 1 "fresh.idx").toOption.map
         (fun r => (r.1 "fresh.idx", r.2.1, r.2.2))
       = some (some (indexBytes [1024]), "fresh.idx", "fresh.idx") ∧
     DSState.get ⟨some (indexBytes [1024]), some (indexBytes [1024])⟩
         (some [fun b => (b : Bytes)]) 0
       = .error .structError) :=
  ⟨⟨by decide, by decide, by decide, by decide, by decide⟩,
   ⟨by decide, by decide, by decide, by decide⟩⟩

set_option maxRecDepth 400000 in
/-- Witness for C4: compacting the concrete two-record source with one
orphaned block to `other.rec` (whose derived index path `other.idx` hits
neither source path nor the output path). -/
theorem C4_defrag_compaction_witness :
    ∃ fs' newLog newIdx,
      defrag_fs cFs "data.rec" "data.idx" 1 "other.rec"
        = .ok (fs', "other.rec", defaultIdxPath "other.rec") ∧
      fs' "data.rec" = cFs "data.rec" ∧
      fs' "data.idx" = cFs "data.idx" ∧
      fs' "other.rec" = some newLog ∧
      fs' (defaultIdxPath "other.rec") = some newIdx ∧
      IndexFile.length (some cModel.srcIdx) = .ok cModel.live.length ∧
      IndexFile.length (some newIdx) = .ok cModel.live.length ∧
      (∀ i, i < cModel.live.length →
        DSState.get ⟨some newLog, some newIdx⟩ (some [fun b => (b : Bytes)])
            ((i : Nat) : Int)
          = DSState.get ⟨some cModel.srcLog, some cModel.srcIdx⟩
              (some [fun b => (b : Bytes)]) ((i : Nat) : Int)) ∧
      newLog.length ≤ cModel.srcLog.length ∧
      ((∃ j0, j0 < cModel.fieldss.length ∧ j0 ∉ cModel.live ∧
          0 < (blockBytes (cModel.fieldss.getD j0 [])).length) →
        newLog.length < cModel.srcLog.length) :=
  C4_defrag_compaction 1 cModel (by decide) cFs "data.rec" "data.idx"
    "other.rec" (by decide) (by decide) (by decide) (by decide) (by decide) (by decide)
    (by decide) [fun b => b] rfl

end EzRecords











